import Mathlib

/-!
Verification development for the Actions-on-Google conversation testing
library (`assistant-conversation-testing-nodejs`).

The development shallowly embeds the algorithmic core of the repository:

* the deep-merge / deep-clone utility (`src/merge.ts`: `getDeepMerge`,
  `deepClone`, `unprotectedDeepMerge`, `isPlainObject`),
* the protobuf typed-value decoder
  (`src/action-on-google-test-manager.ts`: `getValueFromField`),
* the orchestration helpers `getIsConversationEnded`,
  `getLatestActionsBuilderEvent`, the pre-request phase of
  `sendInteraction`, `assertValueCommon`, `throwError` and
  `assertTopMatchedIntent`.

JavaScript values are modelled as trees in which every object, array and
function node carries an explicit address (`Nat`).  Two nodes denote the
same JavaScript reference exactly when they carry the same address, so
reference sharing ("copied by reference") is equal-address sharing and
fresh allocation is modelled by threading an allocation counter: every
allocation returns the current counter value as the new node's address and
increments the counter.  Input values are assumed to have all addresses
below the initial counter value, hence an address `≥ c` is a node the
algorithm allocated itself.  JavaScript numbers are modelled as `Int`
(the merge and decoder only pass numbers through, no arithmetic happens).

The merge functions are instrumented with an explicit fuel argument, with
`none` denoting fuel exhaustion; the JavaScript originals recurse without
fuel and may diverge only on cyclic object graphs, which the specification
explicitly leaves out of scope.  All theorems about the merge engine take
a successful (`= some …`) run as a hypothesis, and concrete witnesses show
those hypotheses are satisfiable.
-/

/-- A JavaScript value as handled by the merge utility.  `undefV` is the
JavaScript `undefined` (the result of reading an absent property).  Object
field lists are in property-insertion order, as JavaScript enumerates
them. -/
inductive JVal where
  | undefV : JVal
  | nullJ : JVal
  | boolJ : Bool → JVal
  | numJ : Int → JVal
  | strJ : String → JVal
  | funJ : Nat → JVal
  | arrJ : Nat → List JVal → JVal
  | objJ : Nat → List (String × JVal) → JVal
deriving Repr

namespace JVal

/-- The runtime plain-object test from `src/merge.ts`:
`!!obj && typeof obj === 'object' && obj.constructor === Object`.
`null` is falsy, arrays have constructor `Array`, functions have typeof
`'function'`; only plain objects pass. -/
def isPlainObject : JVal → Bool
  | .objJ _ _ => true
  | _ => false

end JVal

/-- First binding of key `k` in an association list (JavaScript property
lookup; real JavaScript objects never contain duplicate keys). -/
def lookupField {α : Type} : List (String × α) → String → Option α
  | [], _ => none
  | (k, v) :: rest, k2 => if k = k2 then some v else lookupField rest k2

/-- JavaScript property read `obj[k]`: `undefined` when the key is absent. -/
def getField (fs : List (String × JVal)) (k : String) : JVal :=
  (lookupField fs k).getD .undefV

/-- JavaScript property write `obj[k] = v`: overwrite the binding in place
if the key exists, otherwise append it (insertion order semantics). -/
def setField {α : Type} : List (String × α) → String → α → List (String × α)
  | [], k, v => [(k, v)]
  | (k1, v1) :: rest, k, v =>
      if k1 = k then (k1, v) :: rest else (k1, v1) :: setField rest k v

/-- The keys of an association list, in order. -/
def fieldKeys {α : Type} (fs : List (String × α)) : List String :=
  fs.map Prod.fst

mutual

/-- `getDeepMerge` from `src/merge.ts`:
`return unprotectedDeepMerge(deepClone(base), target);`.
First argument is fuel, second the allocation counter. -/
def getDeepMerge : Nat → Nat → JVal → JVal → Option (JVal × Nat)
  | 0, _, _, _ => none
  | fuel + 1, c, base, target =>
      match deepClone fuel c base with
      | none => none
      | some (b, c1) => unprotectedDeepMerge fuel c1 b target
termination_by structural fuel => fuel

/-- `deepClone` from `src/merge.ts`:
`return unprotectedDeepMerge({} as T, source);`.
The object literal `{}` allocates a fresh empty object (address `c`). -/
def deepClone : Nat → Nat → JVal → Option (JVal × Nat)
  | 0, _, _ => none
  | fuel + 1, c, source => unprotectedDeepMerge fuel (c + 1) (.objJ c []) source
termination_by structural fuel => fuel

/-- `unprotectedDeepMerge` from `src/merge.ts`: if either side fails
`isPlainObject` the target is returned as-is (same reference); otherwise
`const result = {...base}` allocates a fresh object (address `c`) with
`base`'s fields copied by reference, and each key of `target` is assigned
the recursive merge of `base`'s value at the key (`undefined` if absent)
with `target`'s value. -/
def unprotectedDeepMerge : Nat → Nat → JVal → JVal → Option (JVal × Nat)
  | 0, _, _, _ => none
  | fuel + 1, c, base, target =>
      match base with
      | .objJ _ bfs =>
          match target with
          | .objJ _ tfs =>
              match mergeFields fuel bfs (c + 1) bfs tfs with
              | none => none
              | some (fs, c2) => some (.objJ c fs, c2)
          | t => some (t, c)
      | _ => some (target, c)
termination_by structural fuel => fuel

/-- The key loop of `unprotectedDeepMerge`:
`for (const key of Object.keys(target)) { result[key] =
getDeepMerge(base[key], target[key]); }`.  `baseFs` are the fields of the
(unmutated) `base`, `acc` the fields of the `result` object being written. -/
def mergeFields : Nat → List (String × JVal) → Nat → List (String × JVal) →
    List (String × JVal) → Option (List (String × JVal) × Nat)
  | 0, _, _, _, _ => none
  | _ + 1, _, c, acc, [] => some (acc, c)
  | fuel + 1, baseFs, c, acc, (k, v) :: rest =>
      match getDeepMerge fuel c (getField baseFs k) v with
      | none => none
      | some (v2, c2) => mergeFields fuel baseFs c2 (setField acc k v2) rest
termination_by structural fuel => fuel

end

/-- A JavaScript value with object and array identities erased: the quotient
in which `chai`'s `deepEqual` compares values.  Function values keep their
reference identity (functions are deep-equal only to themselves). -/
inductive PVal where
  | undefV : PVal
  | nullP : PVal
  | boolP : Bool → PVal
  | numP : Int → PVal
  | strP : String → PVal
  | funP : Nat → PVal
  | arrP : List PVal → PVal
  | objP : List (String × PVal) → PVal
deriving Repr

mutual

/-- Erase object/array addresses, producing the deep-equality class of a
value: `erase a = erase b` says `a` and `b` are deep-equal. -/
def erase : JVal → PVal
  | .undefV => .undefV
  | .nullJ => .nullP
  | .boolJ b => .boolP b
  | .numJ n => .numP n
  | .strJ s => .strP s
  | .funJ a => .funP a
  | .arrJ _ xs => .arrP (eraseL xs)
  | .objJ _ fs => .objP (eraseF fs)

/-- Erase the elements of an array. -/
def eraseL : List JVal → List PVal
  | [] => []
  | v :: rest => erase v :: eraseL rest

/-- Erase the values of a field list. -/
def eraseF : List (String × JVal) → List (String × PVal)
  | [] => []
  | (k, v) :: rest => (k, erase v) :: eraseF rest

end

/-- JavaScript property read at the erased level. -/
def getFieldP (fs : List (String × PVal)) (k : String) : PVal :=
  (lookupField fs k).getD .undefV

mutual

/-- The deep-merge recursion at the erased (deep-equality) level: the same
computation as `getDeepMerge` with allocation dropped.  Because a clone of
a plain object differs from the object only in its root address and (for
duplicate-free field lists) not in its fields, cloning is the identity
after erasure and `pmerge` mirrors `unprotectedDeepMerge` directly. -/
def pmerge : PVal → PVal → PVal
  | .objP bfs, .objP tfs => .objP (pmergeFields bfs bfs tfs)
  | _, t => t
termination_by _ t => sizeOf t

/-- The erased-level key loop of the merge. -/
def pmergeFields (baseFs : List (String × PVal)) (acc : List (String × PVal)) :
    List (String × PVal) → List (String × PVal)
  | [] => acc
  | (k, v) :: rest =>
      pmergeFields baseFs (setField acc k (pmerge (getFieldP baseFs k) v)) rest
termination_by l => sizeOf l

end

mutual

/-- Well-formedness of an erased value: every object's field list binds
each key at most once, recursively. -/
def wfP : PVal → Bool
  | .arrP xs => wfPL xs
  | .objP fs => (fieldKeys fs).Nodup && wfPF fs
  | _ => true

/-- Well-formedness of erased array elements. -/
def wfPL : List PVal → Bool
  | [] => true
  | v :: rest => wfP v && wfPL rest

/-- Well-formedness of erased field values. -/
def wfPF : List (String × PVal) → Bool
  | [] => true
  | (_, v) :: rest => wfP v && wfPF rest

end

mutual

/-- Well-formedness of a JavaScript value: every object's field list binds
each key at most once, recursively.  Every value reachable in a real
JavaScript run satisfies this (objects cannot carry duplicate keys). -/
def wfJ : JVal → Bool
  | .arrJ _ xs => wfJL xs
  | .objJ _ fs => (fieldKeys fs).Nodup && wfJF fs
  | _ => true

/-- Well-formedness of array elements. -/
def wfJL : List JVal → Bool
  | [] => true
  | v :: rest => wfJ v && wfJL rest

/-- Well-formedness of field values. -/
def wfJF : List (String × JVal) → Bool
  | [] => true
  | (_, v) :: rest => wfJ v && wfJF rest

end

mutual

/-- All sub-values of a value, the value itself included: the nodes of the
object graph reachable from it.  A node of the merge result that carries
an address allocated before the merge ran is an input node shared by
reference exactly when it occurs among the inputs' sub-values. -/
def subVals : JVal → List JVal
  | .arrJ a xs => .arrJ a xs :: subValsL xs
  | .objJ a fs => .objJ a fs :: subValsF fs
  | v => [v]

/-- Sub-values of a list of array elements. -/
def subValsL : List JVal → List JVal
  | [] => []
  | v :: rest => subVals v ++ subValsL rest

/-- Sub-values of a field list. -/
def subValsF : List (String × JVal) → List JVal
  | [] => []
  | (_, v) :: rest => subVals v ++ subValsF rest

end

/-- An object node freshly allocated at or after counter value `c`.  The
merge engine allocates only plain objects, so fresh nodes are `objJ`
nodes with address `≥ c`. -/
def freshObj (c : Nat) : JVal → Prop
  | .objJ a _ => c ≤ a
  | _ => False

/-- All addresses occurring in a value lie below `c`: the value existed
before the allocation counter reached `c`. -/
def addrsBelow (c : Nat) (v : JVal) : Prop :=
  ∀ s ∈ subVals v, ¬ freshObj c s

/-- A native decoded value (`IValueType` in the source: booleans, numbers,
strings, null, lists, keyed maps). -/
inductive NVal where
  | nb : Bool → NVal
  | nn : Int → NVal
  | ns : String → NVal
  | nnull : NVal
  | nlist : List NVal → NVal
  | nmap : List (String × NVal) → NVal
deriving Repr

/-- A `google.protobuf.IValue` tagged union as the decoder receives it.
Each member's outer `Option` is presence of the property (what the
source's `'boolValue' in resolvedField` checks observe).  For `listValue`
and `structValue` the second layer distinguishes a `null` payload from an
actual wrapper object (the generated interface types the members as
`IListValue|null` / `IStruct|null`) and the third layer is presence of the
wrapper's optional `values` / `fields` member; these layers matter because
the decoder dereferences them without a guard.  `nullValue`'s payload is
either the JavaScript `null` itself (`none`) or the `NullValue` enum
number (`some n`). -/
inductive IValue where
  | mk : Option Bool → Option Int → Option String → Option (Option Int) →
      Option (Option (Option (List IValue))) →
      Option (Option (Option (List (String × IValue)))) → IValue
deriving Repr

/-- The value the decoder's `return resolvedField.nullValue!` produces: the
stored `null` decodes to null, a stored enum number decodes to that
number. -/
def nullStoredToNative : Option Int → NVal
  | none => .nnull
  | some n => .nn n

mutual

/-- `getValueFromField` from `src/action-on-google-test-manager.ts`.  The
discriminants are checked in source order (`boolValue`, `numberValue`,
`stringValue`, `nullValue`, `listValue`, `structValue`); when none is
present the function returns `null`.  A result of `none` models a thrown
`TypeError`: the list branch reads `.values` off `resolvedField.listValue!`
without a null guard, and the struct branch calls
`Object.entries(structValue.fields!)`, which throws when `fields` is
absent (or the `structValue` payload itself is `null`). -/
def getValueFromField : IValue → Option NVal
  | .mk (some b) _ _ _ _ _ => some (.nb b)
  | .mk none (some n) _ _ _ _ => some (.nn n)
  | .mk none none (some s) _ _ _ => some (.ns s)
  | .mk none none none (some stored) _ _ => some (nullStoredToNative stored)
  | .mk none none none none (some lv) _ =>
      match lv with
      | none => none
      | some none => some (.nlist [])
      | some (some vs) =>
          match decodeValues vs with
          | none => none
          | some xs => some (.nlist xs)
  | .mk none none none none none (some sv) =>
      match sv with
      | none => none
      | some none => none
      | some (some fs) =>
          match decodeEntries fs with
          | none => none
          | some m => some (.nmap m)
  | .mk none none none none none none => some .nnull

/-- The `listValue.values?.forEach` recursion: decode each element in
order (an element's `TypeError` propagates). -/
def decodeValues : List IValue → Option (List NVal)
  | [] => some []
  | v :: rest =>
      match getValueFromField v, decodeValues rest with
      | some x, some xs => some (x :: xs)
      | _, _ => none

/-- The `Object.entries(structValue.fields!)` recursion: decode each
entry's value, preserving keys and order. -/
def decodeEntries : List (String × IValue) → Option (List (String × NVal))
  | [] => some []
  | (k, v) :: rest =>
      match getValueFromField v, decodeEntries rest with
      | some x, some xs => some ((k, x) :: xs)
      | _, _ => none

end

mutual

/-- Modelled from the spec: the natural encoding of a native value into
its corresponding tagged-union case (`null` is stored as the JavaScript
`null`, lists and maps as wrapper objects with their `values` / `fields`
member present). -/
def encodeNative : NVal → IValue
  | .nb b => .mk (some b) none none none none none
  | .nn n => .mk none (some n) none none none none
  | .ns s => .mk none none (some s) none none none
  | .nnull => .mk none none none (some none) none none
  | .nlist xs => .mk none none none none (some (some (some (encodeNativeL xs)))) none
  | .nmap m => .mk none none none none none (some (some (some (encodeNativeF m))))

/-- Encode the elements of a native list. -/
def encodeNativeL : List NVal → List IValue
  | [] => []
  | v :: rest => encodeNative v :: encodeNativeL rest

/-- Encode the entries of a native map. -/
def encodeNativeF : List (String × NVal) → List (String × IValue)
  | [] => []
  | (k, v) :: rest => (k, encodeNative v) :: encodeNativeF rest

end

mutual

/-- A tagged union is decoder-safe when every reachable `listValue` and
`structValue` payload is an actual wrapper object carrying its
`values` / `fields` member: precisely the inputs on which the decoder
cannot raise. -/
def decoderSafe : IValue → Bool
  | .mk _ _ _ _ lv sv =>
      (match lv with
        | none => true
        | some none => false
        | some (some none) => true
        | some (some (some vs)) => decoderSafeL vs) &&
      (match sv with
        | none => true
        | some none => false
        | some (some none) => false
        | some (some (some fs)) => decoderSafeF fs)

/-- Decoder safety for list elements. -/
def decoderSafeL : List IValue → Bool
  | [] => true
  | v :: rest => decoderSafe v && decoderSafeL rest

/-- Decoder safety for struct entries. -/
def decoderSafeF : List (String × IValue) → Bool
  | [] => true
  | (_, v) :: rest => decoderSafe v && decoderSafeF rest

end

/-- An execution event from the response diagnostics.  Only the field the
embedded functions inspect is modelled: `endConversation` is `true` when
the event object carries the `endConversation` marker property. -/
structure ExecutionEvent where
  endConversation : Bool
deriving Repr, DecidableEq

/-- The `diagnostics` section of a response.  `actionsBuilderEvents` is
`none` when the property is absent (what the source's
`'actionsBuilderEvents' in checkedResponse!.diagnostics!` observes). -/
structure Diagnostics where
  actionsBuilderEvents : Option (List ExecutionEvent)
deriving Repr, DecidableEq

/-- A `SendInteractionResponse` as far as the embedded functions read it.
`diagnostics` is always present on responses that passed
`validateSendInteractionResponse`.  `conversationToken` is the
continuation token (`constants.TOKEN_FIELD_NAME = 'conversationToken'`). -/
structure SendInteractionResponse where
  diagnostics : Diagnostics
  conversationToken : Option String
deriving Repr, DecidableEq

/-- `getLatestActionsBuilderEvent` from the manager:
`checkedResponse!.diagnostics?.actionsBuilderEvents?.slice(-1)[0]`. -/
def getLatestActionsBuilderEvent (r : SendInteractionResponse) :
    Option ExecutionEvent :=
  match r.diagnostics.actionsBuilderEvents with
  | none => none
  | some evs => evs.getLast?

/-- `getIsConversationEnded` from the manager, as written: it returns
`true` when `actionsBuilderEvents` is absent from the diagnostics, and
otherwise computes `getLatestActionsBuilderEvent` into a local that is
never used and returns `false` unconditionally. -/
def getIsConversationEnded (r : SendInteractionResponse) : Bool :=
  match r.diagnostics.actionsBuilderEvents with
  | none => true
  | some _ =>
      let _actionsBuilderEvent := getLatestActionsBuilderEvent r
      false

/-- Modelled from the spec: a response indicates conversation termination
when its diagnostics carry no execution events at all, or when the latest
execution event carries the end-of-conversation marker ("a diagnostics
section (an ordered sequence of execution events, each optionally
carrying … an end-of-conversation marker)"). -/
def responseIndicatesEnd (r : SendInteractionResponse) : Bool :=
  match r.diagnostics.actionsBuilderEvents with
  | none => true
  | some evs =>
      match evs.getLast? with
      | none => false
      | some ev => ev.endConversation

/-- The continuation-token value read off the previous response and
assigned into the next request:
`interactionMergeParams[constants.TOKEN_FIELD_NAME] =
this.latestResponse[constants.TOKEN_FIELD_NAME]`. -/
def tokenVal : Option String → JVal
  | none => .undefV
  | some s => .strJ s

/-- JavaScript property assignment `obj[k] = v` on a value known to be an
object (requests built by the merge are objects). -/
def setPropJ : JVal → String → JVal → JVal
  | .objJ a fs, k, v => .objJ a (setField fs k v)
  | o, _, _ => o

/-- `getTestInteractionMergedDefaults` from the manager: the deep merge of
the suite interaction defaults with the test interaction defaults. -/
def getTestInteractionMergedDefaults (fuel c : Nat)
    (suiteInteractionDefaults testInteractionDefaults : JVal) :
    Option (JVal × Nat) :=
  getDeepMerge fuel c suiteInteractionDefaults testInteractionDefaults

/-- The phase of `sendInteraction` that runs before the network call:
merge the layered defaults with the per-call interaction parameters; then,
when a previous response is cached, `assert.isFalse(
this.getIsConversationEnded(), 'Conversation ended unexpectedly in
previous query.')` (an `Except.error` models the raised assertion) and
thread the previous response's continuation token into the request.  The
returned request is what would be handed to
`actionsApiHelper.sendInteraction`.  The outer `Option` is merge fuel. -/
def sendInteractionPrepare (fuel c : Nat)
    (suiteInteractionDefaults testInteractionDefaults interactionParams : JVal)
    (latestResponse : Option SendInteractionResponse) :
    Option (Except String JVal) :=
  match getTestInteractionMergedDefaults fuel c
      suiteInteractionDefaults testInteractionDefaults with
  | none => none
  | some (defaults, c1) =>
      match getDeepMerge fuel c1 defaults interactionParams with
      | none => none
      | some (merged, _) =>
          some (match latestResponse with
            | none => .ok merged
            | some resp =>
                if getIsConversationEnded resp then
                  .error "Conversation ended unexpectedly in previous query."
                else
                  .ok (setPropJ merged "conversationToken"
                        (tokenVal resp.conversationToken)))

/-- Whether the character list `sub` is a prefix of `l`. -/
def listStartsWith : List Char → List Char → Bool
  | [], _ => true
  | _ :: _, [] => false
  | a :: as, b :: bs => a == b && listStartsWith as bs

/-- Whether `sub` occurs as a contiguous run inside `l`. -/
def listOccursIn : List Char → List Char → Bool
  | sub, [] => sub.isEmpty
  | sub, l@(_ :: rest) => listStartsWith sub l || listOccursIn sub rest

/-- JavaScript `value.includes(item)`: `item` is a substring of `value`. -/
def jsIncludes (value item : String) : Bool :=
  listOccursIn item.data value.data

/-- Escaping applied by `JSON.stringify` to string contents (backslash,
quote and the common control characters; other characters are copied). -/
def jsonEscapeChar (ch : Char) : String :=
  if ch = '\\' then "\\\\"
  else if ch = '\"' then "\\\""
  else if ch = '\n' then "\\n"
  else if ch = '\r' then "\\r"
  else if ch = '\t' then "\\t"
  else String.singleton ch

/-- `JSON.stringify` of a string. -/
def jsonStringifyStr (s : String) : String :=
  "\"" ++ String.join (s.data.map jsonEscapeChar) ++ "\""

/-- `JSON.stringify` of an array of strings. -/
def jsonStringifyStrList (l : List String) : String :=
  "[" ++ String.intercalate "," (l.map jsonStringifyStr) ++ "]"

/-- The `expected: string | string[]` union taken by the assertion
helpers. -/
inductive StrOrList where
  | single : String → StrOrList
  | many : List String → StrOrList
deriving Repr, DecidableEq

/-- `JSON.stringify` of the expected value. -/
def jsonStringifyExpected : StrOrList → String
  | .single s => jsonStringifyStr s
  | .many l => jsonStringifyStrList l

/-- The `AssertValueArgs` option bag; `none` models an absent property
(the source reads `'isExact' in args ? args.isExact : false`). -/
structure AssertValueArgs where
  isExact : Option Bool := none
  isRegexp : Option Bool := none
deriving Repr, DecidableEq

/-- `lastUserQuery` is `string | null | undefined`; concatenating `null`
into the error message renders as `"null"`. -/
def jsShowNullable : Option String → String
  | none => "null"
  | some s => s

/-- `throwError` from the manager: the raised error's message is the given
string followed by `'\n  During user query: '` and the last user query. -/
def throwErrorMessage (errorStr : String) (lastUserQuery : Option String) :
    String :=
  errorStr ++ "\n  During user query: " ++ jsShowNullable lastUserQuery

/-- `assertValueCommon` from the manager.  `rmatch value pattern` stands in
for the JavaScript `value.match(pattern)` regular-expression test; it is
only consulted when `isRegexp` is set (the claims under verification all
run with `isRegexp` unset).  `Except.error` carries the message of the
error `throwError` raises. -/
def assertValueCommon (rmatch : String → String → Bool) (value : String)
    (expected : StrOrList) (checkName : String) (args : AssertValueArgs)
    (lastUserQuery : Option String) : Except String Unit :=
  let isExact := args.isExact.getD false
  let isRegexp := args.isRegexp.getD false
  let expectedList := match expected with | .single s => [s] | .many l => l
  let isMatch := expectedList.any fun expectedItem =>
    if isRegexp then
      if isExact then rmatch value ("^" ++ expectedItem ++ "$")
      else rmatch value expectedItem
    else
      if isExact then value == expectedItem
      else jsIncludes value expectedItem
  if isMatch then .ok ()
  else
    .error (throwErrorMessage
      ("Unexpected " ++ checkName ++ ".\n --- Actual value is: " ++
        jsonStringifyStr value ++ ".\n --- Expected" ++
        (if isRegexp then " to regexp match" else " to match") ++
        (match expected with
          | .many _ => " one of"
          | .single _ => "") ++
        ":" ++ jsonStringifyExpected expected)
      lastUserQuery)

/-- JavaScript `list.slice(0, e)` for an integer `e`: a negative end
counts from the end of the list. -/
def jsSliceTo {α : Type} (l : List α) (e : Int) : List α :=
  if e < 0 then l.take (l.length - (-e).toNat) else l.take e.toNat

/-- `assertTopMatchedIntent` from the manager, applied to the list of
matched intent names `getMatchIntentsList` returned.  The source's first
guard `if (!matchedIntents) ...` can never fire — `matchedIntents` is an
array, and arrays are always truthy — so only the slice-membership check
remains: the call succeeds exactly when `expectedIntent` occurs in
`matchedIntents.slice(0, requiredPlace - 1)`. -/
def assertTopMatchedIntent (query expectedIntent : String)
    (requiredPlace : Int) (matchedIntents : List String)
    (lastUserQuery : Option String) : Except String Unit :=
  if (jsSliceTo matchedIntents (requiredPlace - 1)).contains expectedIntent then
    .ok ()
  else
    .error (throwErrorMessage
      ("Query " ++ query ++ " expected matched intent " ++ expectedIntent ++
        " is not part of the top " ++ toString requiredPlace ++
        " matched intents: " ++ jsonStringifyStrList matchedIntents)
      lastUserQuery)

/-- Assign all bindings of `l` into `acc` in order (the shape of the clone
field loop, where every base lookup yields `undefined`). -/
def setAll {α : Type} (acc : List (String × α)) :
    List (String × α) → List (String × α)
  | [] => acc
  | (k, v) :: rest => setAll (setField acc k v) rest

/-- Whether an erased value is a plain object. -/
def pIsObj : PVal → Bool
  | .objP _ => true
  | _ => false

/-- Whether an assertion call succeeded (did not raise). -/
def exceptOk {ε α : Type} : Except ε α → Bool
  | .ok _ => true
  | .error _ => false

section AssocListLemmas

variable {α : Type}

@[simp] theorem fieldKeys_nil : fieldKeys ([] : List (String × α)) = [] := rfl

@[simp] theorem fieldKeys_cons (k : String) (v : α) (fs : List (String × α)) :
    fieldKeys ((k, v) :: fs) = k :: fieldKeys fs := rfl

@[simp] theorem lookupField_nil (k : String) :
    lookupField ([] : List (String × α)) k = none := rfl

theorem lookupField_cons (k1 : String) (v1 : α) (fs : List (String × α))
    (k : String) :
    lookupField ((k1, v1) :: fs) k =
      if k1 = k then some v1 else lookupField fs k := rfl

@[simp] theorem setField_nil (k : String) (v : α) :
    setField ([] : List (String × α)) k v = [(k, v)] := rfl

theorem setField_cons (k1 : String) (v1 : α) (fs : List (String × α))
    (k : String) (v : α) :
    setField ((k1, v1) :: fs) k v =
      if k1 = k then (k1, v) :: fs else (k1, v1) :: setField fs k v := rfl

theorem lookupField_setField_self (fs : List (String × α)) (k : String)
    (v : α) : lookupField (setField fs k v) k = some v := by
  induction fs with
  | nil => simp [lookupField_cons]
  | cons kv rest ih =>
      obtain ⟨k1, v1⟩ := kv
      by_cases h : k1 = k
      · subst h; simp [setField_cons, lookupField_cons]
      · simp [setField_cons, h, lookupField_cons, ih]

theorem lookupField_setField_ne (fs : List (String × α)) (k k2 : String)
    (v : α) (h : k ≠ k2) :
    lookupField (setField fs k v) k2 = lookupField fs k2 := by
  induction fs with
  | nil => simp [lookupField_cons, h]
  | cons kv rest ih =>
      obtain ⟨k1, v1⟩ := kv
      by_cases h1 : k1 = k
      · subst h1; simp [setField_cons, lookupField_cons, h]
      · simp [setField_cons, h1, lookupField_cons, ih]

theorem mem_fieldKeys_setField (fs : List (String × α)) (k k2 : String)
    (v : α) :
    k2 ∈ fieldKeys (setField fs k v) ↔ k2 = k ∨ k2 ∈ fieldKeys fs := by
  induction fs with
  | nil => simp
  | cons kv rest ih =>
      obtain ⟨k1, v1⟩ := kv
      by_cases h1 : k1 = k
      · subst h1; simp [setField_cons]
      · simp [setField_cons, h1] at ih ⊢
        rw [ih]; tauto

theorem setField_eq_of_lookup (fs : List (String × α)) (k : String) (v : α)
    (h : lookupField fs k = some v) : setField fs k v = fs := by
  induction fs with
  | nil => simp at h
  | cons kv rest ih =>
      obtain ⟨k1, v1⟩ := kv
      by_cases h1 : k1 = k
      · subst h1
        rw [lookupField_cons, if_pos rfl] at h
        obtain rfl : v1 = v := Option.some.inj h
        simp [setField_cons]
      · rw [lookupField_cons, if_neg h1] at h
        simp [setField_cons, h1, ih h]

theorem setField_eq_append (fs : List (String × α)) (k : String) (v : α)
    (h : k ∉ fieldKeys fs) : setField fs k v = fs ++ [(k, v)] := by
  induction fs with
  | nil => simp
  | cons kv rest ih =>
      obtain ⟨k1, v1⟩ := kv
      simp at h
      rw [setField_cons, if_neg (fun he => h.1 he.symm), ih h.2]
      simp

theorem fieldKeys_setField_nodup (fs : List (String × α)) (k : String)
    (v : α) (h : (fieldKeys fs).Nodup) :
    (fieldKeys (setField fs k v)).Nodup := by
  induction fs with
  | nil => simp
  | cons kv rest ih =>
      obtain ⟨k1, v1⟩ := kv
      simp at h
      by_cases h1 : k1 = k
      · subst h1; simpa [setField_cons] using h
      · rw [setField_cons, if_neg h1, fieldKeys_cons]
        refine List.Nodup.cons ?_ (ih h.2)
        intro hmem
        rcases (mem_fieldKeys_setField rest k k1 v).mp hmem with h2 | h2
        · exact h1 h2
        · exact h.1 h2

theorem lookupField_eq_none (fs : List (String × α)) (k : String)
    (h : k ∉ fieldKeys fs) : lookupField fs k = none := by
  induction fs with
  | nil => simp
  | cons kv rest ih =>
      obtain ⟨k1, v1⟩ := kv
      simp at h
      rw [lookupField_cons, if_neg (fun he => h.1 he.symm)]
      exact ih h.2

theorem lookupField_isSome_of_mem (fs : List (String × α)) (k : String)
    (h : k ∈ fieldKeys fs) : (lookupField fs k).isSome := by
  induction fs with
  | nil => simp at h
  | cons kv rest ih =>
      obtain ⟨k1, v1⟩ := kv
      by_cases h1 : k1 = k
      · simp [lookupField_cons, h1]
      · rw [lookupField_cons, if_neg h1]
        simp at h
        rcases h with h | h
        · exact absurd h.symm h1
        · exact ih h

theorem lookupField_mem_pairs (fs : List (String × α)) (k : String) (v : α)
    (h : lookupField fs k = some v) : (k, v) ∈ fs := by
  induction fs with
  | nil => simp at h
  | cons kv rest ih =>
      obtain ⟨k1, v1⟩ := kv
      by_cases h1 : k1 = k
      · subst h1
        rw [lookupField_cons, if_pos rfl] at h
        obtain rfl : v1 = v := Option.some.inj h
        exact List.mem_cons_self _ _
      · rw [lookupField_cons, if_neg h1] at h
        exact List.mem_cons_of_mem _ (ih h)

theorem lookupField_of_mem_nodup (fs : List (String × α)) (k : String)
    (v : α) (hnd : (fieldKeys fs).Nodup) (h : (k, v) ∈ fs) :
    lookupField fs k = some v := by
  induction fs with
  | nil => simp at h
  | cons kv rest ih =>
      obtain ⟨k1, v1⟩ := kv
      simp at hnd
      rcases List.mem_cons.mp h with h | h
      · obtain ⟨rfl, rfl⟩ := Prod.mk.injEq k v k1 v1 ▸ h
        simp [lookupField_cons]
      · have hk : k1 ≠ k := by
          intro he; subst he
          exact hnd.1 ((List.mem_map).mpr ⟨(k1, v), h, rfl⟩)
        rw [lookupField_cons, if_neg hk]
        exact ih hnd.2 h

end AssocListLemmas

theorem setAll_disjoint {α : Type} (l acc : List (String × α))
    (hnd : (fieldKeys l).Nodup) (h : ∀ k ∈ fieldKeys l, k ∉ fieldKeys acc) :
    setAll acc l = acc ++ l := by
  induction l generalizing acc with
  | nil => simp [setAll]
  | cons kv rest ih =>
      obtain ⟨k, v⟩ := kv
      simp at hnd
      rw [setAll, setField_eq_append acc k v (h k (by simp)),
        ih (acc ++ [(k, v)]) hnd.2]
      · simp
      · intro k2 hk2 hmem
        rw [show fieldKeys (acc ++ [(k, v)]) = fieldKeys acc ++ [k] from by
          simp [fieldKeys]] at hmem
        rcases List.mem_append.mp hmem with hmem | hmem
        · exact h k2 (by simp [hk2]) hmem
        · simp at hmem
          exact hnd.1 (hmem ▸ hk2)

theorem setAll_nil {α : Type} (l : List (String × α))
    (hnd : (fieldKeys l).Nodup) : setAll [] l = l := by
  simpa using setAll_disjoint l [] hnd (by simp)

theorem getField_nil (k : String) : getField [] k = .undefV := rfl

/-- Merging `undefined` (an absent base value) with any value returns that
value unchanged — the same reference — after one garbage allocation (the
`{}` literal the clone of `undefined` creates). -/
theorem getDeepMerge_undef (f c : Nat) (v r : JVal) (c2 : Nat)
    (h : getDeepMerge f c .undefV v = some (r, c2)) : r = v ∧ c2 = c + 1 := by
  match f with
  | 0 => simp [getDeepMerge] at h
  | 1 => simp [getDeepMerge, deepClone] at h
  | 2 => simp [getDeepMerge, deepClone, unprotectedDeepMerge] at h
  | f + 3 =>
      simp [getDeepMerge, deepClone, unprotectedDeepMerge] at h
      exact ⟨h.1.symm, h.2.symm⟩

/-- The field loop with an empty base: every binding of the target is
assigned unchanged (the recursive merges all have an `undefined` base
value), one allocation per binding. -/
theorem mergeFields_nilBase (f : Nat) (l : List (String × JVal))
    (c : Nat) (acc res : List (String × JVal)) (c2 : Nat)
    (h : mergeFields f [] c acc l = some (res, c2)) :
    res = setAll acc l ∧ c2 = c + l.length := by
  induction l generalizing f c acc with
  | nil =>
      match f with
      | 0 => simp [mergeFields] at h
      | f + 1 =>
          simp [mergeFields] at h
          simp [setAll, h.1.symm, h.2.symm]
  | cons kv rest ih =>
      obtain ⟨k, v⟩ := kv
      match f with
      | 0 => simp [mergeFields] at h
      | f + 1 =>
          rw [mergeFields] at h
          rcases hg : getDeepMerge f c (getField [] k) v with _ | ⟨v2, c3⟩
          · rw [hg] at h; simp at h
          · rw [hg] at h
            try simp only at h
            rw [getField_nil] at hg
            obtain ⟨hv2, hc3⟩ := getDeepMerge_undef f c v v2 c3 hg
            rw [hv2, hc3] at h
            obtain ⟨hres, hc2⟩ := ih f (c + 1) (setField acc k v) h
            constructor
            · rw [setAll]; exact hres
            · rw [hc2, List.length_cons]; omega

/-- Cloning a non-plain value returns the value itself — the same
reference — after the garbage `{}` allocation. -/
theorem deepClone_nonplain (f c : Nat) (s r : JVal) (c2 : Nat)
    (hs : s.isPlainObject = false) (h : deepClone f c s = some (r, c2)) :
    r = s ∧ c2 = c + 1 := by
  match f with
  | 0 => simp [deepClone] at h
  | f + 1 =>
      match f with
      | 0 => simp [deepClone, unprotectedDeepMerge] at h
      | f + 1 =>
          cases s <;>
            first
              | (simp [deepClone, unprotectedDeepMerge] at h
                 exact ⟨h.1.symm, h.2.symm⟩)
              | simp [JVal.isPlainObject] at hs

/-- Cloning a plain object allocates a fresh root (address `c + 1`; the
`{}` literal takes address `c`) whose fields are the source's bindings
assigned in order — for a duplicate-free source, literally the source's
field list, every field value shared by reference. -/
theorem deepClone_obj (f c : Nat) (a : Nat) (fs : List (String × JVal))
    (r : JVal) (c2 : Nat) (h : deepClone f c (.objJ a fs) = some (r, c2)) :
    r = .objJ (c + 1) (setAll [] fs) ∧ c2 = c + 2 + fs.length := by
  match f with
  | 0 => simp [deepClone] at h
  | f + 1 =>
      match f with
      | 0 => simp [deepClone, unprotectedDeepMerge] at h
      | f + 1 =>
          rw [deepClone, unprotectedDeepMerge] at h
          rcases hm : mergeFields f [] (c + 2) [] fs with _ | ⟨res, c3⟩
          · rw [hm] at h; simp at h
          · rw [hm] at h
            simp at h
            obtain ⟨hres, hc⟩ := mergeFields_nilBase f fs (c + 2) [] res c3 hm
            exact ⟨by rw [← h.1, hres], by omega⟩

/-- When either side fails the plain-object test, the merge returns the
target value itself — the same reference, no combination and no cloning of
the target's internals. -/
theorem getDeepMerge_nonplain (f c : Nat) (base target r : JVal) (c2 : Nat)
    (hs : (base.isPlainObject && target.isPlainObject) = false)
    (h : getDeepMerge f c base target = some (r, c2)) : r = target := by
  rcases f with _ | f
  · simp [getDeepMerge] at h
  rw [getDeepMerge] at h
  rcases hcl : deepClone f c base with _ | ⟨b2, c1⟩
  · rw [hcl] at h; simp at h
  rw [hcl] at h
  try simp only at h
  cases hb : base.isPlainObject with
  | true =>
      obtain ⟨a, bfs, rfl⟩ : ∃ a bfs, base = .objJ a bfs := by
        cases base <;> simp [JVal.isPlainObject] at hb ⊢
      obtain ⟨hb2, -⟩ := deepClone_obj f c a bfs b2 c1 hcl
      subst hb2
      rw [hb] at hs
      simp at hs
      rcases f with _ | f
      · simp [unprotectedDeepMerge] at h
      cases target <;>
        first
          | (simp [unprotectedDeepMerge] at h; exact h.1.symm)
          | simp [JVal.isPlainObject] at hs
  | false =>
      obtain ⟨hb2eq, -⟩ := deepClone_nonplain f c base b2 c1 hb hcl
      rw [hb2eq] at h
      rcases f with _ | f
      · simp [unprotectedDeepMerge] at h
      cases base <;>
        first
          | (simp [unprotectedDeepMerge] at h; exact h.1.symm)
          | simp [JVal.isPlainObject] at hb

/-- Merging two plain objects: the clone of the base contributes the
base's bindings (shared by reference), the result root is a fresh object
(address `c + 2 + |base fields|`, in particular `≥ c`), and the final
counter and fields come from the key loop run on the base's bindings. -/
theorem getDeepMerge_obj_char (f c a b : Nat)
    (afs bfs : List (String × JVal)) (r : JVal) (c2 : Nat)
    (hnd : (fieldKeys afs).Nodup)
    (h : getDeepMerge f c (.objJ a afs) (.objJ b bfs) = some (r, c2)) :
    ∃ g res, mergeFields g afs (c + 3 + afs.length) afs bfs = some (res, c2) ∧
      r = .objJ (c + 2 + afs.length) res := by
  rcases f with _ | f
  · simp [getDeepMerge] at h
  rw [getDeepMerge] at h
  rcases hcl : deepClone f c (.objJ a afs) with _ | ⟨b2, c1⟩
  · rw [hcl] at h; simp at h
  rw [hcl] at h
  try simp only at h
  obtain ⟨hb2, hc1⟩ := deepClone_obj f c a afs b2 c1 hcl
  rw [setAll_nil afs hnd] at hb2
  subst hb2 hc1
  rcases f with _ | f
  · simp [unprotectedDeepMerge] at h
  rw [unprotectedDeepMerge] at h
  try simp only at h
  rcases hm : mergeFields f afs (c + 2 + afs.length + 1) afs bfs
    with _ | ⟨res, c3⟩
  · rw [hm] at h; simp at h
  rw [hm] at h
  simp at h
  refine ⟨f, res, ?_, ?_⟩
  · rw [show c + 3 + afs.length = c + 2 + afs.length + 1 from by omega, hm,
      h.2]
  · exact h.1.symm

/-- What the key loop computes, key by key: keys not bound by the target
keep the accumulator's (that is, the base clone's) binding, and every
target binding ends up as the recursive merge of the base's value at that
key with the target's value. -/
theorem mergeFields_char (l : List (String × JVal)) :
    ∀ f baseFs c acc res c2,
      mergeFields f baseFs c acc l = some (res, c2) →
      (fieldKeys l).Nodup →
      (∀ k, k ∉ fieldKeys l → lookupField res k = lookupField acc k) ∧
      (∀ k v, (k, v) ∈ l → ∃ g c3 c4 v2,
        getDeepMerge g c3 (getField baseFs k) v = some (v2, c4) ∧
        lookupField res k = some v2) := by
  induction l with
  | nil =>
      intro f baseFs c acc res c2 h _
      match f with
      | 0 => simp [mergeFields] at h
      | f + 1 =>
          simp [mergeFields] at h
          exact ⟨fun k _ => by rw [h.1], fun k v hv => by simp at hv⟩
  | cons kv rest ih =>
      obtain ⟨k1, v1⟩ := kv
      intro f baseFs c acc res c2 h hnd
      simp at hnd
      match f with
      | 0 => simp [mergeFields] at h
      | f + 1 =>
          rw [mergeFields] at h
          rcases hg : getDeepMerge f c (getField baseFs k1) v1 with _ | ⟨v2, c3⟩
          · rw [hg] at h; simp at h
          · rw [hg] at h
            try simp only at h
            obtain ⟨h1, h2⟩ := ih f baseFs c3 (setField acc k1 v2) res c2 h hnd.2
            constructor
            · intro k hk
              simp at hk
              rw [h1 k hk.2, lookupField_setField_ne _ _ _ _ (Ne.symm hk.1)]
            · intro k v hv
              rcases List.mem_cons.mp hv with hv | hv
              · obtain ⟨rfl, rfl⟩ := Prod.mk.injEq k v k1 v1 ▸ hv
                refine ⟨f, c, c3, v2, hg, ?_⟩
                rw [h1 k (fun hmem => hnd.1 hmem), lookupField_setField_self]
              · exact h2 k v hv

/-- The allocation counter never decreases through any of the merge
functions. -/
theorem mergeCounterMono : ∀ f : Nat,
    (∀ c b t r c2, getDeepMerge f c b t = some (r, c2) → c ≤ c2) ∧
    (∀ c s r c2, deepClone f c s = some (r, c2) → c ≤ c2) ∧
    (∀ c b t r c2, unprotectedDeepMerge f c b t = some (r, c2) → c ≤ c2) ∧
    (∀ baseFs c acc l res c2,
      mergeFields f baseFs c acc l = some (res, c2) → c ≤ c2) := by
  intro f
  induction f with
  | zero =>
      refine ⟨?_, ?_, ?_, ?_⟩ <;> intros <;>
        simp_all [getDeepMerge, deepClone, unprotectedDeepMerge, mergeFields]
  | succ f ih =>
      obtain ⟨ihg, ihc, ihu, ihm⟩ := ih
      have hu : ∀ c b t r c2,
          unprotectedDeepMerge (f + 1) c b t = some (r, c2) → c ≤ c2 := by
        intro c b t r c2 h
        cases b <;>
          first
            | (simp [unprotectedDeepMerge] at h; exact le_of_eq h.2)
            | (cases t <;>
                first
                  | (simp [unprotectedDeepMerge] at h; exact le_of_eq h.2)
                  | (rw [unprotectedDeepMerge] at h
                     try simp only at h
                     rcases hm : mergeFields f _ (c + 1) _ _ with _ | ⟨res, c3⟩
                     · rw [hm] at h; simp at h
                     · rw [hm] at h
                       simp at h
                       have := ihm _ (c + 1) _ _ res c3 hm
                       omega))
      refine ⟨?_, ?_, hu, ?_⟩
      · intro c b t r c2 h
        rw [getDeepMerge] at h
        rcases hcl : deepClone f c b with _ | ⟨b2, c1⟩
        · rw [hcl] at h; simp at h
        · rw [hcl] at h
          try simp only at h
          exact le_trans (ihc c b b2 c1 hcl) (ihu c1 b2 t r c2 h)
      · intro c s r c2 h
        rw [deepClone] at h
        exact le_trans (Nat.le_succ c) (ihu (c + 1) _ s r c2 h)
      · intro baseFs c acc l res c2 h
        cases l with
        | nil => simp [mergeFields] at h; exact le_of_eq h.2
        | cons kv rest =>
            obtain ⟨k, v⟩ := kv
            rw [mergeFields] at h
            rcases hg : getDeepMerge f c (getField baseFs k) v
              with _ | ⟨v2, c3⟩
            · rw [hg] at h; simp at h
            · rw [hg] at h
              try simp only at h
              exact le_trans (ihg c _ v v2 c3 hg)
                (ihm baseFs c3 _ rest res c2 h)

theorem subVals_self (v : JVal) : v ∈ subVals v := by
  cases v <;> simp [subVals]

theorem subVals_mem_of_pair (fs : List (String × JVal)) (k : String)
    (v : JVal) (hmem : (k, v) ∈ fs) : ∀ x ∈ subVals v, x ∈ subValsF fs := by
  induction fs with
  | nil => simp at hmem
  | cons kv rest ih =>
      obtain ⟨k1, v1⟩ := kv
      intro x hx
      rw [subValsF]
      rcases List.mem_cons.mp hmem with hmem | hmem
      · obtain ⟨rfl, rfl⟩ := Prod.mk.injEq k v k1 v1 ▸ hmem
        exact List.mem_append_left _ hx
      · exact List.mem_append_right _ (ih hmem x hx)

theorem subVals_lookup (fs : List (String × JVal)) (k : String) (v : JVal)
    (hl : lookupField fs k = some v) : ∀ x ∈ subVals v, x ∈ subValsF fs :=
  subVals_mem_of_pair fs k v (lookupField_mem_pairs fs k v hl)

theorem subValsF_setField (acc : List (String × JVal)) (k : String)
    (v : JVal) : ∀ x ∈ subValsF (setField acc k v),
      x ∈ subVals v ∨ x ∈ subValsF acc := by
  induction acc with
  | nil => intro x hx; simp [subValsF] at hx; exact Or.inl hx
  | cons kv rest ih =>
      obtain ⟨k1, v1⟩ := kv
      intro x hx
      rw [setField_cons] at hx
      by_cases h1 : k1 = k
      · rw [if_pos h1] at hx
        rw [subValsF] at hx
        rcases List.mem_append.mp hx with hx | hx
        · exact Or.inl hx
        · exact Or.inr (by rw [subValsF]; exact List.mem_append_right _ hx)
      · rw [if_neg h1] at hx
        rw [subValsF] at hx
        rcases List.mem_append.mp hx with hx | hx
        · exact Or.inr (by rw [subValsF]; exact List.mem_append_left _ hx)
        · rcases ih x hx with hx | hx
          · exact Or.inl hx
          · exact Or.inr (by rw [subValsF]; exact List.mem_append_right _ hx)

theorem subValsF_sub_obj (a : Nat) (fs : List (String × JVal)) :
    ∀ x ∈ subValsF fs, x ∈ subVals (.objJ a fs) := by
  intro x hx
  rw [subVals]
  exact List.mem_cons_of_mem _ hx

/-- `unprotectedDeepMerge` when either side fails the plain-object test:
the target is returned unchanged and nothing is allocated. -/
theorem unprotectedDeepMerge_nonplain (f c : Nat) (b t r : JVal) (c2 : Nat)
    (hs : (b.isPlainObject && t.isPlainObject) = false)
    (h : unprotectedDeepMerge f c b t = some (r, c2)) : r = t ∧ c2 = c := by
  rcases f with _ | f
  · simp [unprotectedDeepMerge] at h
  cases b <;>
    first
      | (simp [unprotectedDeepMerge] at h; exact ⟨h.1.symm, h.2.symm⟩)
      | (cases t <;>
          first
            | (simp [unprotectedDeepMerge] at h; exact ⟨h.1.symm, h.2.symm⟩)
            | simp [JVal.isPlainObject] at hs)

/-- The sharing/no-mutation frame of the merge engine: every node of a
merge result is either an object the engine freshly allocated (address
`≥ c`) or a node of one of the inputs, shared by reference and with its
entire subtree unchanged.  In particular the engine never writes into an
input object: all its writes go to fresh allocations, which is exactly
how the JavaScript original leaves its inputs unmutated. -/
theorem mergeFrame : ∀ f : Nat,
    (∀ c b t r c2, getDeepMerge f c b t = some (r, c2) →
      ∀ x ∈ subVals r, freshObj c x ∨ x ∈ subVals b ∨ x ∈ subVals t) ∧
    (∀ c s r c2, deepClone f c s = some (r, c2) →
      ∀ x ∈ subVals r, freshObj c x ∨ x ∈ subVals s) ∧
    (∀ c b t r c2, unprotectedDeepMerge f c b t = some (r, c2) →
      ∀ x ∈ subVals r, freshObj c x ∨ x ∈ subVals b ∨ x ∈ subVals t) ∧
    (∀ baseFs c acc l res c2, mergeFields f baseFs c acc l = some (res, c2) →
      ∀ x ∈ subValsF res, freshObj c x ∨ x ∈ subValsF acc ∨
        x ∈ subValsF baseFs ∨ x ∈ subValsF l) := by
  have hfreshMono : ∀ (c c1 : Nat) (x : JVal), c ≤ c1 → freshObj c1 x →
      freshObj c x := by
    intro c c1 x hle hf
    cases x <;> simp [freshObj] at hf ⊢
    omega
  intro f
  induction f with
  | zero =>
      refine ⟨?_, ?_, ?_, ?_⟩ <;> intros <;>
        simp_all [getDeepMerge, deepClone, unprotectedDeepMerge, mergeFields]
  | succ f ih =>
      obtain ⟨ihg, ihc, ihu, ihm⟩ := ih
      have hu : ∀ c b t r c2,
          unprotectedDeepMerge (f + 1) c b t = some (r, c2) →
          ∀ x ∈ subVals r, freshObj c x ∨ x ∈ subVals b ∨ x ∈ subVals t := by
        intro c b t r c2 h x hx
        by_cases hbt : (b.isPlainObject && t.isPlainObject) = true
        · obtain ⟨a, bfs, rfl⟩ : ∃ a bfs, b = .objJ a bfs := by
            cases b <;> simp [JVal.isPlainObject] at hbt ⊢
          obtain ⟨a2, tfs, rfl⟩ : ∃ a2 tfs, t = .objJ a2 tfs := by
            cases t <;> simp [JVal.isPlainObject] at hbt ⊢
          rw [unprotectedDeepMerge] at h
          try simp only at h
          rcases hm : mergeFields f bfs (c + 1) bfs tfs with _ | ⟨res, c3⟩
          · rw [hm] at h; simp at h
          rw [hm] at h
          simp at h
          rw [← h.1] at hx
          rw [subVals] at hx
          rcases List.mem_cons.mp hx with hx | hx
          · subst hx; exact Or.inl (by simp [freshObj])
          · rcases ihm bfs (c + 1) bfs tfs res c3 hm x hx
              with hf | hacc | hbase | hl
            · exact Or.inl (hfreshMono c (c + 1) x (by omega) hf)
            · exact Or.inr (Or.inl (subValsF_sub_obj a bfs x hacc))
            · exact Or.inr (Or.inl (subValsF_sub_obj a bfs x hbase))
            · exact Or.inr (Or.inr (subValsF_sub_obj a2 tfs x hl))
        · obtain ⟨rfl, -⟩ := unprotectedDeepMerge_nonplain (f + 1) c b t r c2
            (by simpa using hbt) h
          exact Or.inr (Or.inr hx)
      refine ⟨?_, ?_, hu, ?_⟩
      · intro c b t r c2 h x hx
        rw [getDeepMerge] at h
        rcases hcl : deepClone f c b with _ | ⟨b2, c1⟩
        · rw [hcl] at h; simp at h
        rw [hcl] at h
        try simp only at h
        have hmono := (mergeCounterMono f).2.1 c b b2 c1 hcl
        rcases ihu c1 b2 t r c2 h x hx with hf | hb2 | ht
        · exact Or.inl (hfreshMono c c1 x hmono hf)
        · rcases ihc c b b2 c1 hcl x hb2 with hf | hb
          · exact Or.inl hf
          · exact Or.inr (Or.inl hb)
        · exact Or.inr (Or.inr ht)
      · intro c s r c2 h x hx
        rw [deepClone] at h
        rcases ihu (c + 1) (.objJ c []) s r c2 h x hx with hf | hobj | hs2
        · exact Or.inl (hfreshMono c (c + 1) x (by omega) hf)
        · rw [subVals] at hobj
          simp [subValsF] at hobj
          subst hobj
          exact Or.inl (by simp [freshObj])
        · exact Or.inr hs2
      · intro baseFs c acc l res c2 h x hx
        cases l with
        | nil =>
            simp [mergeFields] at h
            rw [← h.1] at hx
            exact Or.inr (Or.inl hx)
        | cons kv rest =>
            obtain ⟨k, v⟩ := kv
            rw [mergeFields] at h
            rcases hg : getDeepMerge f c (getField baseFs k) v
              with _ | ⟨v2, c3⟩
            · rw [hg] at h; simp at h
            rw [hg] at h
            try simp only at h
            have hmono := (mergeCounterMono f).1 c (getField baseFs k) v v2 c3
              hg
            rcases ihm baseFs c3 (setField acc k v2) rest res c2 h x hx
              with hf | hacc | hbase | hrest
            · exact Or.inl (hfreshMono c c3 x hmono hf)
            · rcases subValsF_setField acc k v2 x hacc with hv2 | hacc2
              · rcases hlk : lookupField baseFs k with _ | w
                · have hgv : getDeepMerge f c .undefV v = some (v2, c3) := by
                    rw [show JVal.undefV = getField baseFs k from by
                      simp [getField, hlk]]
                    exact hg
                  obtain ⟨hveq, -⟩ := getDeepMerge_undef f c v v2 c3 hgv
                  rw [hveq] at hv2
                  refine Or.inr (Or.inr (Or.inr ?_))
                  rw [subValsF]
                  exact List.mem_append_left _ hv2
                · rcases ihg c (getField baseFs k) v v2 c3 hg x hv2
                    with hf2 | hbaseval | hvmem
                  · exact Or.inl hf2
                  · rw [show getField baseFs k = w from by
                      simp [getField, hlk]] at hbaseval
                    exact Or.inr (Or.inr (Or.inl
                      (subVals_lookup baseFs k w hlk x hbaseval)))
                  · refine Or.inr (Or.inr (Or.inr ?_))
                    rw [subValsF]
                    exact List.mem_append_left _ hvmem
              · exact Or.inr (Or.inl hacc2)
            · exact Or.inr (Or.inr (Or.inl hbase))
            · refine Or.inr (Or.inr (Or.inr ?_))
              rw [subValsF]
              exact List.mem_append_right _ hrest

@[simp] theorem eraseF_nil : eraseF [] = [] := rfl

@[simp] theorem eraseF_cons (k : String) (v : JVal)
    (rest : List (String × JVal)) :
    eraseF ((k, v) :: rest) = (k, erase v) :: eraseF rest := rfl

@[simp] theorem eraseL_nil : eraseL [] = [] := rfl

@[simp] theorem eraseL_cons (v : JVal) (rest : List JVal) :
    eraseL (v :: rest) = erase v :: eraseL rest := rfl

theorem lookupField_eraseF (fs : List (String × JVal)) (k : String) :
    lookupField (eraseF fs) k = (lookupField fs k).map erase := by
  induction fs with
  | nil => simp
  | cons kv rest ih =>
      obtain ⟨k1, v1⟩ := kv
      by_cases h : k1 = k
      · simp [lookupField_cons, h]
      · simp [lookupField_cons, h, ih]

theorem getFieldP_eraseF (fs : List (String × JVal)) (k : String) :
    getFieldP (eraseF fs) k = erase (getField fs k) := by
  rw [getFieldP, getField, lookupField_eraseF]
  cases lookupField fs k <;> simp [erase]

theorem eraseF_setField (fs : List (String × JVal)) (k : String) (v : JVal) :
    eraseF (setField fs k v) = setField (eraseF fs) k (erase v) := by
  induction fs with
  | nil => simp
  | cons kv rest ih =>
      obtain ⟨k1, v1⟩ := kv
      by_cases h : k1 = k
      · simp [setField_cons, h]
      · simp [setField_cons, h, ih]

theorem fieldKeys_eraseF (fs : List (String × JVal)) :
    fieldKeys (eraseF fs) = fieldKeys fs := by
  induction fs with
  | nil => simp
  | cons kv rest ih =>
      obtain ⟨k1, v1⟩ := kv
      simp [ih]

theorem wfJ_obj (a : Nat) (fs : List (String × JVal)) :
    wfJ (.objJ a fs) = ((fieldKeys fs).Nodup && wfJF fs) := by
  rw [wfJ]

theorem wfJF_mem (fs : List (String × JVal)) (k : String) (v : JVal)
    (hwf : wfJF fs = true) (h : (k, v) ∈ fs) : wfJ v = true := by
  induction fs with
  | nil => simp at h
  | cons kv rest ih =>
      obtain ⟨k1, v1⟩ := kv
      rw [wfJF] at hwf
      simp at hwf
      rcases List.mem_cons.mp h with h | h
      · obtain ⟨rfl, rfl⟩ := Prod.mk.injEq k v k1 v1 ▸ h
        exact hwf.1
      · exact ih hwf.2 h

theorem wfJF_setField (fs : List (String × JVal)) (k : String) (v : JVal)
    (hwf : wfJF fs = true) (hv : wfJ v = true) :
    wfJF (setField fs k v) = true := by
  induction fs with
  | nil => simp [wfJF, hv]
  | cons kv rest ih =>
      obtain ⟨k1, v1⟩ := kv
      rw [wfJF] at hwf
      simp at hwf
      by_cases h : k1 = k
      · rw [setField_cons, if_pos h, wfJF]
        simp [hv, hwf.2]
      · rw [setField_cons, if_neg h, wfJF]
        simp [hwf.1, ih hwf.2]

theorem wfJ_getField (fs : List (String × JVal)) (k : String)
    (hwf : wfJF fs = true) : wfJ (getField fs k) = true := by
  rw [getField]
  rcases hl : lookupField fs k with _ | w
  · simp [wfJ]
  · simp
    exact wfJF_mem fs k w hwf (lookupField_mem_pairs fs k w hl)

/-- The merge engine preserves well-formedness: results of merging
duplicate-free inputs are duplicate-free. -/
theorem mergeWf : ∀ f : Nat,
    (∀ c b t r c2, getDeepMerge f c b t = some (r, c2) →
      wfJ b = true → wfJ t = true → wfJ r = true) ∧
    (∀ c s r c2, deepClone f c s = some (r, c2) →
      wfJ s = true → wfJ r = true) ∧
    (∀ c b t r c2, unprotectedDeepMerge f c b t = some (r, c2) →
      wfJ b = true → wfJ t = true → wfJ r = true) ∧
    (∀ baseFs c acc l res c2, mergeFields f baseFs c acc l = some (res, c2) →
      wfJF baseFs = true → (fieldKeys acc).Nodup → wfJF acc = true →
      wfJF l = true →
      (fieldKeys res).Nodup ∧ wfJF res = true) := by
  intro f
  induction f with
  | zero =>
      refine ⟨?_, ?_, ?_, ?_⟩ <;> intros <;>
        simp_all [getDeepMerge, deepClone, unprotectedDeepMerge, mergeFields]
  | succ f ih =>
      obtain ⟨ihg, ihc, ihu, ihm⟩ := ih
      have hu : ∀ c b t r c2,
          unprotectedDeepMerge (f + 1) c b t = some (r, c2) →
          wfJ b = true → wfJ t = true → wfJ r = true := by
        intro c b t r c2 h hwb hwt
        by_cases hbt : (b.isPlainObject && t.isPlainObject) = true
        · obtain ⟨a, bfs, rfl⟩ : ∃ a bfs, b = .objJ a bfs := by
            cases b <;> simp [JVal.isPlainObject] at hbt ⊢
          obtain ⟨a2, tfs, rfl⟩ : ∃ a2 tfs, t = .objJ a2 tfs := by
            cases t <;> simp [JVal.isPlainObject] at hbt ⊢
          rw [unprotectedDeepMerge] at h
          try simp only at h
          rcases hm : mergeFields f bfs (c + 1) bfs tfs with _ | ⟨res, c3⟩
          · rw [hm] at h; simp at h
          rw [hm] at h
          simp at h
          rw [wfJ_obj] at hwb hwt
          simp at hwb hwt
          obtain ⟨hnd, hwf⟩ := ihm bfs (c + 1) bfs tfs res c3 hm hwb.2 hwb.1
            hwb.2 hwt.2
          rw [← h.1, wfJ_obj]
          simp [hnd, hwf]
        · obtain ⟨rfl, -⟩ := unprotectedDeepMerge_nonplain (f + 1) c b t r c2
            (by simpa using hbt) h
          exact hwt
      refine ⟨?_, ?_, hu, ?_⟩
      · intro c b t r c2 h hwb hwt
        rw [getDeepMerge] at h
        rcases hcl : deepClone f c b with _ | ⟨b2, c1⟩
        · rw [hcl] at h; simp at h
        rw [hcl] at h
        try simp only at h
        exact ihu c1 b2 t r c2 h (ihc c b b2 c1 hcl hwb) hwt
      · intro c s r c2 h hws
        rw [deepClone] at h
        exact ihu (c + 1) (.objJ c []) s r c2 h (by simp [wfJ_obj, wfJF]) hws
      · intro baseFs c acc l res c2 h hwbase hndacc hwacc hwl
        cases l with
        | nil =>
            simp [mergeFields] at h
            rw [← h.1]
            exact ⟨hndacc, hwacc⟩
        | cons kv rest =>
            obtain ⟨k, v⟩ := kv
            rw [mergeFields] at h
            rcases hg : getDeepMerge f c (getField baseFs k) v
              with _ | ⟨v2, c3⟩
            · rw [hg] at h; simp at h
            rw [hg] at h
            try simp only at h
            rw [wfJF] at hwl
            simp at hwl
            have hwv2 : wfJ v2 = true :=
              ihg c (getField baseFs k) v v2 c3 hg
                (wfJ_getField baseFs k hwbase) hwl.1
            exact ihm baseFs c3 (setField acc k v2) rest res c2 h hwbase
              (fieldKeys_setField_nodup acc k v2 hndacc)
              (wfJF_setField acc k v2 hwacc hwv2) hwl.2

theorem pIsObj_erase (b : JVal) : pIsObj (erase b) = b.isPlainObject := by
  cases b <;> simp [erase, pIsObj, JVal.isPlainObject]

theorem pmerge_objs (bfs tfs : List (String × PVal)) :
    pmerge (.objP bfs) (.objP tfs) = .objP (pmergeFields bfs bfs tfs) := by
  rw [pmerge]

theorem pmerge_eq_target (b t : PVal) (h : (pIsObj b && pIsObj t) = false) :
    pmerge b t = t := by
  cases b <;> cases t <;> simp [pIsObj] at h <;> simp [pmerge]

theorem pmergeFields_nil (baseFs acc : List (String × PVal)) :
    pmergeFields baseFs acc [] = acc := by
  rw [pmergeFields]

theorem pmergeFields_cons (baseFs acc : List (String × PVal)) (k : String)
    (v : PVal) (rest : List (String × PVal)) :
    pmergeFields baseFs acc ((k, v) :: rest) =
      pmergeFields baseFs
        (setField acc k (pmerge (getFieldP baseFs k) v)) rest := by
  rw [pmergeFields]

/-- Erasing a merge result gives the pure erased-level merge of the erased
inputs: the merge engine computes, up to allocation, the deep-merge of the
deep-equality classes. -/
theorem mergeErase : ∀ f : Nat,
    (∀ c b t r c2, getDeepMerge f c b t = some (r, c2) →
      wfJ b = true → wfJ t = true →
      erase r = pmerge (erase b) (erase t)) ∧
    (∀ c s r c2, deepClone f c s = some (r, c2) → wfJ s = true →
      erase r = erase s) ∧
    (∀ c b t r c2, unprotectedDeepMerge f c b t = some (r, c2) →
      wfJ b = true → wfJ t = true →
      erase r = pmerge (erase b) (erase t)) ∧
    (∀ baseFs c acc l res c2, mergeFields f baseFs c acc l = some (res, c2) →
      wfJF baseFs = true → wfJF l = true →
      eraseF res = pmergeFields (eraseF baseFs) (eraseF acc) (eraseF l)) := by
  have hclone : ∀ f c s r c2, deepClone f c s = some (r, c2) →
      wfJ s = true → erase r = erase s := by
    intro f c s r c2 h hws
    cases hsp : s.isPlainObject with
    | true =>
        obtain ⟨a, fs, rfl⟩ : ∃ a fs, s = .objJ a fs := by
          cases s <;> simp [JVal.isPlainObject] at hsp ⊢
        obtain ⟨hr, -⟩ := deepClone_obj f c a fs r c2 h
        rw [wfJ_obj] at hws
        simp at hws
        rw [hr, setAll_nil fs hws.1]
        simp [erase]
    | false =>
        obtain ⟨rfl, -⟩ := deepClone_nonplain f c s r c2 hsp h
        rfl
  intro f
  induction f with
  | zero =>
      refine ⟨?_, ?_, ?_, ?_⟩ <;> intros <;>
        simp_all [getDeepMerge, deepClone, unprotectedDeepMerge, mergeFields]
  | succ f ih =>
      obtain ⟨ihg, -, ihu, ihm⟩ := ih
      have hu : ∀ c b t r c2,
          unprotectedDeepMerge (f + 1) c b t = some (r, c2) →
          wfJ b = true → wfJ t = true →
          erase r = pmerge (erase b) (erase t) := by
        intro c b t r c2 h hwb hwt
        by_cases hbt : (b.isPlainObject && t.isPlainObject) = true
        · obtain ⟨a, bfs, rfl⟩ : ∃ a bfs, b = .objJ a bfs := by
            cases b <;> simp [JVal.isPlainObject] at hbt ⊢
          obtain ⟨a2, tfs, rfl⟩ : ∃ a2 tfs, t = .objJ a2 tfs := by
            cases t <;> simp [JVal.isPlainObject] at hbt ⊢
          rw [unprotectedDeepMerge] at h
          try simp only at h
          rcases hm : mergeFields f bfs (c + 1) bfs tfs with _ | ⟨res, c3⟩
          · rw [hm] at h; simp at h
          rw [hm] at h
          simp at h
          rw [wfJ_obj] at hwb hwt
          simp at hwb hwt
          rw [← h.1]
          show PVal.objP (eraseF res) = _
          rw [show erase (JVal.objJ a bfs) = .objP (eraseF bfs) from rfl,
            show erase (JVal.objJ a2 tfs) = .objP (eraseF tfs) from rfl,
            pmerge_objs, ihm bfs (c + 1) bfs tfs res c3 hm hwb.2 hwt.2]
        · obtain ⟨rfl, -⟩ := unprotectedDeepMerge_nonplain (f + 1) c b t r c2
            (by simpa using hbt) h
          rw [pmerge_eq_target]
          rw [pIsObj_erase, pIsObj_erase]
          simpa using hbt
      refine ⟨?_, hclone (f + 1), hu, ?_⟩
      · intro c b t r c2 h hwb hwt
        rw [getDeepMerge] at h
        rcases hcl : deepClone f c b with _ | ⟨b2, c1⟩
        · rw [hcl] at h; simp at h
        rw [hcl] at h
        try simp only at h
        have hwb2 : wfJ b2 = true := (mergeWf f).2.1 c b b2 c1 hcl hwb
        rw [ihu c1 b2 t r c2 h hwb2 hwt, hclone f c b b2 c1 hcl hwb]
      · intro baseFs c acc l res c2 h hwbase hwl
        cases l with
        | nil =>
            simp [mergeFields] at h
            rw [← h.1, eraseF_nil, pmergeFields_nil]
        | cons kv rest =>
            obtain ⟨k, v⟩ := kv
            rw [mergeFields] at h
            rcases hg : getDeepMerge f c (getField baseFs k) v
              with _ | ⟨v2, c3⟩
            · rw [hg] at h; simp at h
            rw [hg] at h
            try simp only at h
            rw [wfJF] at hwl
            simp at hwl
            have hev2 : erase v2 =
                pmerge (getFieldP (eraseF baseFs) k) (erase v) := by
              rw [getFieldP_eraseF]
              exact ihg c (getField baseFs k) v v2 c3 hg
                (wfJ_getField baseFs k hwbase) hwl.1
            rw [eraseF_cons, pmergeFields_cons, ← hev2, ← eraseF_setField]
            exact ihm baseFs c3 (setField acc k v2) rest res c2 h hwbase hwl.2

theorem mem_fieldKeys_of_lookup {α : Type} (fs : List (String × α))
    (k : String) (v : α) (h : lookupField fs k = some v) :
    k ∈ fieldKeys fs := by
  induction fs with
  | nil => simp at h
  | cons kv rest ih =>
      obtain ⟨k1, v1⟩ := kv
      by_cases h1 : k1 = k
      · simp [h1]
      · rw [lookupField_cons, if_neg h1] at h
        simp [ih h]

theorem wfP_obj (fs : List (String × PVal)) :
    wfP (.objP fs) = ((fieldKeys fs).Nodup && wfPF fs) := by
  rw [wfP]

theorem wfPF_mem (fs : List (String × PVal)) (k : String) (v : PVal)
    (hwf : wfPF fs = true) (h : (k, v) ∈ fs) : wfP v = true := by
  induction fs with
  | nil => simp at h
  | cons kv rest ih =>
      obtain ⟨k1, v1⟩ := kv
      rw [wfPF] at hwf
      simp at hwf
      rcases List.mem_cons.mp h with h | h
      · obtain ⟨rfl, rfl⟩ := Prod.mk.injEq k v k1 v1 ▸ h
        exact hwf.1
      · exact ih hwf.2 h

/-- Erasure carries well-formed values to well-formed erased values. -/
theorem wfP_erase_aux : ∀ n : Nat,
    (∀ v : JVal, sizeOf v ≤ n → wfJ v = true → wfP (erase v) = true) ∧
    (∀ xs : List JVal, sizeOf xs ≤ n → wfJL xs = true →
      wfPL (eraseL xs) = true) ∧
    (∀ fs : List (String × JVal), sizeOf fs ≤ n → wfJF fs = true →
      wfPF (eraseF fs) = true) := by
  intro n
  induction n using Nat.strong_induction_on with
  | _ n ih =>
      refine ⟨?_, ?_, ?_⟩
      · intro v hsz hwf
        cases v with
        | arrJ a xs =>
            have hlt : sizeOf xs < n := by
              have := JVal.arrJ.sizeOf_spec a xs
              omega
            rw [wfJ] at hwf
            show wfPL (eraseL xs) = true
            exact (ih (sizeOf xs) hlt).2.1 xs le_rfl hwf
        | objJ a fs =>
            have hlt : sizeOf fs < n := by
              have := JVal.objJ.sizeOf_spec a fs
              omega
            rw [wfJ_obj] at hwf
            simp at hwf
            show wfP (.objP (eraseF fs)) = true
            rw [wfP_obj, fieldKeys_eraseF]
            simp [hwf.1, (ih (sizeOf fs) hlt).2.2 fs le_rfl hwf.2]
        | undefV => rfl
        | nullJ => rfl
        | boolJ b => rfl
        | numJ q => rfl
        | strJ s => rfl
        | funJ a => rfl
      · intro xs hsz hwf
        cases xs with
        | nil => rfl
        | cons v rest =>
            have hv : sizeOf v < n := by
              have := List.cons.sizeOf_spec v rest
              omega
            have hr : sizeOf rest < n := by
              have := List.cons.sizeOf_spec v rest
              omega
            rw [wfJL] at hwf
            simp at hwf
            rw [eraseL_cons, wfPL]
            simp [(ih (sizeOf v) hv).1 v le_rfl hwf.1,
              (ih (sizeOf rest) hr).2.1 rest le_rfl hwf.2]
      · intro fs hsz hwf
        cases fs with
        | nil => rfl
        | cons kv rest =>
            obtain ⟨k, v⟩ := kv
            have hv : sizeOf v < n := by
              have h1 := List.cons.sizeOf_spec (k, v) rest
              have h2 := Prod.mk.sizeOf_spec k v
              omega
            have hr : sizeOf rest < n := by
              have := List.cons.sizeOf_spec (k, v) rest
              omega
            rw [wfJF] at hwf
            simp at hwf
            rw [eraseF_cons, wfPF]
            simp [(ih (sizeOf v) hv).1 v le_rfl hwf.1,
              (ih (sizeOf rest) hr).2.2 rest le_rfl hwf.2]

theorem wfP_erase (v : JVal) (hwf : wfJ v = true) : wfP (erase v) = true :=
  (wfP_erase_aux (sizeOf v)).1 v le_rfl hwf

/-- The erased-level key loop, key by key (duplicate-free target): target
keys map to the recursive merge of the base's value with the target's
value, other keys keep the accumulator's binding. -/
theorem pmergeFields_char (l : List (String × PVal)) :
    ∀ baseFs acc, (fieldKeys l).Nodup →
      (∀ k, k ∉ fieldKeys l →
        lookupField (pmergeFields baseFs acc l) k = lookupField acc k) ∧
      (∀ k v, (k, v) ∈ l →
        lookupField (pmergeFields baseFs acc l) k =
          some (pmerge (getFieldP baseFs k) v)) := by
  induction l with
  | nil =>
      intro baseFs acc _
      rw [pmergeFields_nil]
      exact ⟨fun k _ => rfl, fun k v hv => by simp at hv⟩
  | cons kv rest ih =>
      obtain ⟨k1, v1⟩ := kv
      intro baseFs acc hnd
      simp at hnd
      rw [pmergeFields_cons]
      obtain ⟨h1, h2⟩ := ih baseFs
        (setField acc k1 (pmerge (getFieldP baseFs k1) v1)) hnd.2
      constructor
      · intro k hk
        simp at hk
        rw [h1 k hk.2, lookupField_setField_ne _ _ _ _ (Ne.symm hk.1)]
      · intro k v hv
        rcases List.mem_cons.mp hv with hv | hv
        · obtain ⟨rfl, rfl⟩ := Prod.mk.injEq k v k1 v1 ▸ hv
          rw [h1 k (fun hmem => hnd.1 hmem), lookupField_setField_self]
        · exact h2 k v hv

/-- If every target binding would assign exactly the value the accumulator
already holds, the key loop leaves the accumulator unchanged. -/
theorem pmergeFields_fixed (baseFs : List (String × PVal)) :
    ∀ (l acc : List (String × PVal)),
      (∀ k v, (k, v) ∈ l → ∃ w, lookupField acc k = some w ∧
        pmerge (getFieldP baseFs k) v = w) →
      pmergeFields baseFs acc l = acc := by
  intro l
  induction l with
  | nil => intro acc _; rw [pmergeFields_nil]
  | cons kv rest ih =>
      obtain ⟨k1, v1⟩ := kv
      intro acc hfix
      obtain ⟨w, hw, hpw⟩ := hfix k1 v1 (List.mem_cons_self _ _)
      rw [pmergeFields_cons, hpw, setField_eq_of_lookup acc k1 w hw]
      exact ih acc (fun k v hv => hfix k v (List.mem_cons_of_mem _ hv))

/-- Merging a well-formed erased value with itself is the identity. -/
theorem pmerge_self_aux : ∀ n : Nat, ∀ v : PVal, sizeOf v ≤ n →
    wfP v = true → pmerge v v = v := by
  intro n
  induction n using Nat.strong_induction_on with
  | _ n ih =>
      intro v hsz hwf
      cases hobj : pIsObj v with
      | false => exact pmerge_eq_target v v (by simp [hobj])
      | true =>
          obtain ⟨fs, rfl⟩ : ∃ fs, v = .objP fs := by
            cases v <;> simp [pIsObj] at hobj ⊢
          rw [wfP_obj] at hwf
          simp at hwf
          rw [pmerge_objs, pmergeFields_fixed fs fs fs]
          intro k v hv
          refine ⟨v, lookupField_of_mem_nodup fs k v hwf.1 hv, ?_⟩
          rw [getFieldP, lookupField_of_mem_nodup fs k v hwf.1 hv]
          have hszv : sizeOf v < n := by
            have h1 := List.sizeOf_lt_of_mem hv
            have h2 := Prod.mk.sizeOf_spec k v
            have h3 := PVal.objP.sizeOf_spec fs
            omega
          exact ih (sizeOf v) hszv v le_rfl (wfPF_mem fs k v hwf.2 hv)

/-- The erased-level merge is idempotent in its target argument. -/
theorem pmerge_idem_aux : ∀ n : Nat, ∀ b : PVal, sizeOf b ≤ n →
    wfP b = true → ∀ a, pmerge (pmerge a b) b = pmerge a b := by
  intro n
  induction n using Nat.strong_induction_on with
  | _ n ih =>
      intro b hsz hwfb a
      cases hbobj : pIsObj b with
      | false =>
          rw [pmerge_eq_target a b (by simp [hbobj]),
            pmerge_eq_target b b (by simp [hbobj])]
      | true =>
          obtain ⟨bfs, rfl⟩ : ∃ bfs, b = .objP bfs := by
            cases b <;> simp [pIsObj] at hbobj ⊢
          cases haobj : pIsObj a with
          | false =>
              rw [pmerge_eq_target a _ (by simp [haobj]),
                pmerge_self_aux (sizeOf (PVal.objP bfs)) _ le_rfl hwfb]
          | true =>
              obtain ⟨afs, rfl⟩ : ∃ afs, a = .objP afs := by
                cases a <;> simp [pIsObj] at haobj ⊢
              rw [wfP_obj] at hwfb
              simp at hwfb
              rw [pmerge_objs, pmerge_objs, pmergeFields_fixed]
              intro k v hv
              have hlk := (pmergeFields_char bfs afs afs hwfb.1).2 k v hv
              refine ⟨pmerge (getFieldP afs k) v, hlk, ?_⟩
              rw [getFieldP, hlk]
              simp only [Option.getD_some]
              have hszv : sizeOf v < n := by
                have h1 := List.sizeOf_lt_of_mem hv
                have h2 := Prod.mk.sizeOf_spec k v
                have h3 := PVal.objP.sizeOf_spec bfs
                omega
              exact ih (sizeOf v) hszv v le_rfl
                (wfPF_mem bfs k v hwfb.2 hv) (getFieldP afs k)

/-- The erased-level merge is idempotent in its target argument (top-level
form). -/
theorem pmerge_idem (a b : PVal) (hwfb : wfP b = true) :
    pmerge (pmerge a b) b = pmerge a b :=
  pmerge_idem_aux (sizeOf b) b le_rfl hwfb a

/-- Decoding is a left inverse of the natural encoding: the round-trip
returns the original native value, at every depth. -/
theorem decode_encode_aux : ∀ n : Nat,
    (∀ v : NVal, sizeOf v ≤ n →
      getValueFromField (encodeNative v) = some v) ∧
    (∀ xs : List NVal, sizeOf xs ≤ n →
      decodeValues (encodeNativeL xs) = some xs) ∧
    (∀ m : List (String × NVal), sizeOf m ≤ n →
      decodeEntries (encodeNativeF m) = some m) := by
  intro n
  induction n using Nat.strong_induction_on with
  | _ n ih =>
      refine ⟨?_, ?_, ?_⟩
      · intro v hsz
        cases v with
        | nb b => rfl
        | nn q => rfl
        | ns s => rfl
        | nnull => rfl
        | nlist xs =>
            have hlt : sizeOf xs < n := by
              have := NVal.nlist.sizeOf_spec xs
              omega
            rw [encodeNative, getValueFromField,
              (ih (sizeOf xs) hlt).2.1 xs le_rfl]
        | nmap m =>
            have hlt : sizeOf m < n := by
              have := NVal.nmap.sizeOf_spec m
              omega
            rw [encodeNative, getValueFromField,
              (ih (sizeOf m) hlt).2.2 m le_rfl]
      · intro xs hsz
        cases xs with
        | nil => rfl
        | cons v rest =>
            have hv : sizeOf v < n := by
              have := List.cons.sizeOf_spec v rest
              omega
            have hr : sizeOf rest < n := by
              have := List.cons.sizeOf_spec v rest
              omega
            rw [encodeNativeL, decodeValues,
              (ih (sizeOf v) hv).1 v le_rfl,
              (ih (sizeOf rest) hr).2.1 rest le_rfl]
      · intro m hsz
        cases m with
        | nil => rfl
        | cons kv rest =>
            obtain ⟨k, v⟩ := kv
            have hv : sizeOf v < n := by
              have h1 := List.cons.sizeOf_spec (k, v) rest
              have h2 := Prod.mk.sizeOf_spec k v
              omega
            have hr : sizeOf rest < n := by
              have := List.cons.sizeOf_spec (k, v) rest
              omega
            rw [encodeNativeF, decodeEntries,
              (ih (sizeOf v) hv).1 v le_rfl,
              (ih (sizeOf rest) hr).2.2 rest le_rfl]

/-- The decoder round-trip at the top level. -/
theorem decode_encode (v : NVal) :
    getValueFromField (encodeNative v) = some v :=
  (decode_encode_aux (sizeOf v)).1 v le_rfl

/-- On decoder-safe inputs the decoder always returns a value (it can only
raise through a missing `values`/`fields` wrapper member). -/
theorem decode_total_aux : ∀ n : Nat,
    (∀ v : IValue, sizeOf v ≤ n → decoderSafe v = true →
      (getValueFromField v).isSome = true) ∧
    (∀ xs : List IValue, sizeOf xs ≤ n → decoderSafeL xs = true →
      (decodeValues xs).isSome = true) ∧
    (∀ m : List (String × IValue), sizeOf m ≤ n → decoderSafeF m = true →
      (decodeEntries m).isSome = true) := by
  intro n
  induction n using Nat.strong_induction_on with
  | _ n ih =>
      refine ⟨?_, ?_, ?_⟩
      · intro v hsz hsafe
        obtain ⟨b, q, s, nl, lv, sv⟩ := v
        rw [decoderSafe.eq_def] at hsafe
        simp only [Bool.and_eq_true] at hsafe
        cases b with
        | some b => rfl
        | none =>
        cases q with
        | some q => rfl
        | none =>
        cases s with
        | some s => rfl
        | none =>
        cases nl with
        | some stored => rfl
        | none =>
        cases lv with
        | some lv =>
            cases lv with
            | none => simp at hsafe
            | some lv =>
                cases lv with
                | none => rfl
                | some vs =>
                    have hlt : sizeOf vs < n := by
                      have h1 := IValue.mk.sizeOf_spec (none : Option Bool)
                        (none : Option Int) (none : Option String)
                        (none : Option (Option Int))
                        (some (some (some vs))) sv
                      have h2 : sizeOf (some (some (some vs))) =
                          3 + sizeOf vs := by
                        simp
                        omega
                      omega
                    have := (ih (sizeOf vs) hlt).2.1 vs le_rfl (by
                      rcases hsafe with ⟨hl, -⟩
                      simpa using hl)
                    simp only [getValueFromField]
                    rcases hdv : decodeValues vs with _ | xs
                    · rw [hdv] at this; simp at this
                    · rfl
        | none =>
        cases sv with
        | none => rfl
        | some sv =>
            cases sv with
            | none => simp at hsafe
            | some sv =>
                cases sv with
                | none => simp at hsafe
                | some fs =>
                    have hlt : sizeOf fs < n := by
                      have h1 := IValue.mk.sizeOf_spec (none : Option Bool)
                        (none : Option Int) (none : Option String)
                        (none : Option (Option Int))
                        (none : Option (Option (Option (List IValue))))
                        (some (some (some fs)))
                      have h2 : sizeOf (some (some (some fs))) =
                          3 + sizeOf fs := by
                        simp
                        omega
                      omega
                    have := (ih (sizeOf fs) hlt).2.2 fs le_rfl (by
                      rcases hsafe with ⟨-, hf⟩
                      simpa using hf)
                    simp only [getValueFromField]
                    rcases hdv : decodeEntries fs with _ | m
                    · rw [hdv] at this; simp at this
                    · rfl
      · intro xs hsz hsafe
        cases xs with
        | nil => rfl
        | cons v rest =>
            have hv : sizeOf v < n := by
              have := List.cons.sizeOf_spec v rest
              omega
            have hr : sizeOf rest < n := by
              have := List.cons.sizeOf_spec v rest
              omega
            rw [decoderSafeL] at hsafe
            simp at hsafe
            have h1 := (ih (sizeOf v) hv).1 v le_rfl hsafe.1
            have h2 := (ih (sizeOf rest) hr).2.1 rest le_rfl hsafe.2
            rw [decodeValues]
            rcases hd1 : getValueFromField v with _ | x
            · rw [hd1] at h1; simp at h1
            rcases hd2 : decodeValues rest with _ | xs2
            · rw [hd2] at h2; simp at h2
            rfl
      · intro m hsz hsafe
        cases m with
        | nil => rfl
        | cons kv rest =>
            obtain ⟨k, v⟩ := kv
            have hv : sizeOf v < n := by
              have h1 := List.cons.sizeOf_spec (k, v) rest
              have h2 := Prod.mk.sizeOf_spec k v
              omega
            have hr : sizeOf rest < n := by
              have := List.cons.sizeOf_spec (k, v) rest
              omega
            rw [decoderSafeF] at hsafe
            simp at hsafe
            have h1 := (ih (sizeOf v) hv).1 v le_rfl hsafe.1
            have h2 := (ih (sizeOf rest) hr).2.2 rest le_rfl hsafe.2
            rw [decodeEntries]
            rcases hd1 : getValueFromField v with _ | x
            · rw [hd1] at h1; simp at h1
            rcases hd2 : decodeEntries rest with _ | m2
            · rw [hd2] at h2; simp at h2
            rfl

theorem listStartsWith_refl (l : List Char) : listStartsWith l l = true := by
  induction l with
  | nil => rfl
  | cons a as ih => simp [listStartsWith, ih]

theorem listOccursIn_append (sub pre : List Char) :
    listOccursIn sub (pre ++ sub) = true := by
  induction pre with
  | nil =>
      cases sub with
      | nil => rfl
      | cons a as => simp [listOccursIn, listStartsWith_refl]
  | cons c pre ih => simp [listOccursIn, ih]

theorem jsIncludes_append (s t : String) : jsIncludes (s ++ t) t = true := by
  rw [jsIncludes, String.data_append]
  exact listOccursIn_append t.data s.data

/-- C8: for every actual string and expected string-or-list,
`assertValueCommon` succeeds in default mode exactly when some expected
element is a substring of the actual value, and with `isExact` set exactly
when the actual value equals some expected element; on failure the raised
error's message includes the last user query.  In particular, expected
`['no match', 'Welcome to Facts about Google!']` against the actual
welcome speech succeeds by default and fails with `isExact`. -/
theorem C8_assertValueCommon_contract :
    (∀ (rm : String → String → Bool) (value checkName : String)
        (expected : StrOrList) (q : Option String),
      (assertValueCommon rm value expected checkName {} q = .ok () ↔
        ∃ item, item ∈ (match expected with
          | .single s => [s]
          | .many l => l) ∧ jsIncludes value item = true) ∧
      (assertValueCommon rm value expected checkName
          { isExact := some true } q = .ok () ↔
        ∃ item, item ∈ (match expected with
          | .single s => [s]
          | .many l => l) ∧ value = item) ∧
      (∀ args : AssertValueArgs,
        exceptOk (assertValueCommon rm value expected checkName args q) =
          false →
        ∃ msg, assertValueCommon rm value expected checkName args q =
          .error msg ∧ jsIncludes msg (jsShowNullable q) = true)) ∧
    (assertValueCommon (fun _ _ => false)
      "Welcome to Facts about Google! What type of facts would you like to hear?"
      (.many ["no match", "Welcome to Facts about Google!"]) "speech" {}
      (some "Talk to my test app") = .ok ()) ∧
    (exceptOk (assertValueCommon (fun _ _ => false)
      "Welcome to Facts about Google! What type of facts would you like to hear?"
      (.many ["no match", "Welcome to Facts about Google!"]) "speech"
      { isExact := some true } (some "Talk to my test app")) = false) := by
  refine ⟨?_, by rfl, by rfl⟩
  intro rm value checkName expected q
  refine ⟨?_, ?_, ?_⟩
  · unfold assertValueCommon
    simp only [Option.getD_none, if_neg (by simp : ¬(false = true))]
    by_cases hm : ((match expected with
        | .single s => [s]
        | .many l => l).any fun item => jsIncludes value item) = true
    · rw [if_pos (by simpa using hm)]
      simp [List.any_eq_true] at hm
      simpa using hm
    · rw [if_neg (by simpa using hm)]
      simp [List.any_eq_true] at hm
      constructor
      · intro h; exact absurd h (by simp)
      · rintro ⟨item, hmem, hinc⟩
        exact absurd hinc (by simpa using hm item hmem)
  · unfold assertValueCommon
    simp only [Option.getD_some, Option.getD_none,
      if_neg (by simp : ¬(false = true))]
    by_cases hm : ((match expected with
        | .single s => [s]
        | .many l => l).any fun item => value == item) = true
    · rw [if_pos (by simpa using hm)]
      simp [List.any_eq_true] at hm
      simpa using hm
    · rw [if_neg (by simpa using hm)]
      simp [List.any_eq_true] at hm
      constructor
      · intro h; exact absurd h (by simp)
      · rintro ⟨item, hmem, heq⟩
        rw [← heq] at hmem
        exact absurd hmem (by simpa using hm)
  · intro args hfail
    unfold assertValueCommon at hfail ⊢
    by_cases hm : ((match expected with
        | .single s => [s]
        | .many l => l).any fun item =>
          if args.isRegexp.getD false then
            if args.isExact.getD false then rm value ("^" ++ item ++ "$")
            else rm value item
          else
            if args.isExact.getD false then value == item
            else jsIncludes value item) = true
    · rw [if_pos hm] at hfail
      simp [exceptOk] at hfail
    · rw [if_neg hm] at hfail ⊢
      refine ⟨_, rfl, ?_⟩
      rw [throwErrorMessage]
      exact jsIncludes_append _ _

/-- C1: the claim says a `sendInteraction` after a response marked
conversation-ended raises a usage error before issuing the follow-up, and
that `getIsConversationEnded` returns true exactly when the response
indicates termination.  The code diverges: on a response whose latest
execution event carries the end-of-conversation marker,
`getIsConversationEnded` returns `false` (it computes the latest event
into a local it never reads and returns `false` unconditionally), so the
pre-request phase of `sendInteraction` raises no error and issues the
follow-up request with the threaded token. -/
theorem C1_conversationEnded_divergence :
    responseIndicatesEnd
      ⟨⟨some [⟨true⟩]⟩, some "tok"⟩ = true ∧
    getIsConversationEnded
      ⟨⟨some [⟨true⟩]⟩, some "tok"⟩ = false ∧
    sendInteractionPrepare 20 4 (.objJ 0 []) (.objJ 1 [])
        (.objJ 2 [("input", .objJ 3 [("query", .strJ "hello")])])
        (some ⟨⟨some [⟨true⟩]⟩, some "tok"⟩) =
      some (.ok (.objJ 9 [("input", .objJ 3 [("query", .strJ "hello")]),
        ("conversationToken", .strJ "tok")])) :=
  ⟨rfl, rfl, rfl⟩

/-- C2 counterexample: the claim says every nested plain-object node of a
clone, at every depth, is freshly allocated.  Cloning
`{a: {b: 5}}` (addresses 0 and 1, allocation counter starting at 2)
returns a root allocated at address 3 whose field `a` still carries
address 1: the nested plain object is shared by reference with the
source, not freshly allocated. -/
theorem C2_clone_shares_nested :
    deepClone 20 2 (.objJ 0 [("a", .objJ 1 [("b", .numJ 5)])]) =
      some (.objJ 3 [("a", .objJ 1 [("b", .numJ 5)])], 5) ∧
    JVal.objJ 1 [("b", .numJ 5)] ∈
      subVals (.objJ 3 [("a", .objJ 1 [("b", .numJ 5)])]) ∧
    JVal.objJ 1 [("b", .numJ 5)] ∈
      subVals (.objJ 0 [("a", .objJ 1 [("b", .numJ 5)])]) ∧
    ¬ freshObj 2 (.objJ 1 [("b", .numJ 5)]) := by
  refine ⟨rfl, ?_, ?_, ?_⟩
  · simp [subVals, subValsF]
  · simp [subVals, subValsF]
  · show ¬ (2 ≤ 1)
    omega

/-- C2 (amended): `clone` of a plain object returns a value deep-equal to
the source whose root is freshly allocated (address `c + 1`), but whose
field values — nested plain objects included — are the source's own
values shared by reference; a non-plain source is returned by reference
unchanged. -/
theorem C2_clone_shallow_contract :
    (∀ f c a (fs : List (String × JVal)) r c2, (fieldKeys fs).Nodup →
      deepClone f c (.objJ a fs) = some (r, c2) →
      r = .objJ (c + 1) fs ∧ erase r = erase (.objJ a fs)) ∧
    (∀ f c (s r : JVal) c2, s.isPlainObject = false →
      deepClone f c s = some (r, c2) → r = s) := by
  constructor
  · intro f c a fs r c2 hnd h
    obtain ⟨hr, -⟩ := deepClone_obj f c a fs r c2 h
    rw [setAll_nil fs hnd] at hr
    exact ⟨hr, by rw [hr]; rfl⟩
  · intro f c s r c2 hs h
    exact (deepClone_nonplain f c s r c2 hs h).1

/-- C2 witness: the amended contract applied to the concrete clone of
`{a: {b: 5}}`. -/
theorem C2_clone_shallow_witness :
    (fieldKeys [("a", JVal.objJ 1 [("b", JVal.numJ 5)])]).Nodup ∧
    ((JVal.objJ 3 [("a", .objJ 1 [("b", .numJ 5)])]) =
      .objJ (2 + 1) [("a", .objJ 1 [("b", .numJ 5)])] ∧
     erase (JVal.objJ 3 [("a", .objJ 1 [("b", .numJ 5)])]) =
      erase (.objJ 0 [("a", .objJ 1 [("b", .numJ 5)])])) :=
  ⟨by decide, C2_clone_shallow_contract.1 20 2 0
    [("a", .objJ 1 [("b", .numJ 5)])]
    (.objJ 3 [("a", .objJ 1 [("b", .numJ 5)])]) 5 (by decide) rfl⟩

/-- C3: the decoder round-trip: encoding any native value — booleans,
numbers, strings, null (which decodes back to null), lists, maps, and any
nesting of struct-in-list and list-in-struct — into its tagged-union case
and decoding returns the original value. -/
theorem C3_decode_encode_roundtrip (v : NVal) :
    getValueFromField (encodeNative v) = some v :=
  decode_encode v

/-- C4: the merge contract.  When either side fails the plain-object test
the result is the target value itself (no combination, no cloning).  When
both sides are plain objects the result is a freshly allocated object
whose binding at each key of the override is the recursive merge of the
base's value at that key (`undefined` when absent) with the override's
value, and whose binding at each base-only key is the base's value shared
by reference. -/
theorem C4_merge_contract :
    (∀ f c (b t r : JVal) c2,
      (b.isPlainObject && t.isPlainObject) = false →
      getDeepMerge f c b t = some (r, c2) → r = t) ∧
    (∀ f c a b (afs bfs : List (String × JVal)) r c2,
      (fieldKeys afs).Nodup → (fieldKeys bfs).Nodup →
      getDeepMerge f c (.objJ a afs) (.objJ b bfs) = some (r, c2) →
      ∃ fs2, r = .objJ (c + 2 + afs.length) fs2 ∧ freshObj c r ∧
        (∀ k, k ∉ fieldKeys bfs → lookupField fs2 k = lookupField afs k) ∧
        (∀ k v, (k, v) ∈ bfs → ∃ g c3 c4 v2,
          getDeepMerge g c3 (getField afs k) v = some (v2, c4) ∧
          lookupField fs2 k = some v2)) := by
  constructor
  · exact fun f c b t r c2 hs h => getDeepMerge_nonplain f c b t r c2 hs h
  · intro f c a b afs bfs r c2 hnda hndb h
    obtain ⟨g, res, hm, hr⟩ := getDeepMerge_obj_char f c a b afs bfs r c2
      hnda h
    obtain ⟨h1, h2⟩ := mergeFields_char bfs g afs (c + 3 + afs.length) afs
      res c2 hm hndb
    refine ⟨res, hr, ?_, h1, h2⟩
    rw [hr]
    show c ≤ c + 2 + afs.length
    omega

/-- C4 witness: the contract applied to the concrete merge of
`{x: 1}` with `{y: 2}`. -/
theorem C4_merge_contract_witness :
    (fieldKeys [("x", JVal.numJ 1)]).Nodup ∧
    (fieldKeys [("y", JVal.numJ 2)]).Nodup ∧
    (∃ fs2, (JVal.objJ 5 [("x", .numJ 1), ("y", .numJ 2)]) =
        .objJ (2 + 2 + [("x", JVal.numJ 1)].length) fs2 ∧
      freshObj 2 (JVal.objJ 5 [("x", .numJ 1), ("y", .numJ 2)]) ∧
      (∀ k, k ∉ fieldKeys [("y", JVal.numJ 2)] →
        lookupField fs2 k = lookupField [("x", JVal.numJ 1)] k) ∧
      (∀ k v, (k, v) ∈ [("y", JVal.numJ 2)] → ∃ g c3 c4 v2,
        getDeepMerge g c3 (getField [("x", JVal.numJ 1)] k) v =
          some (v2, c4) ∧
        lookupField fs2 k = some v2)) :=
  ⟨by decide, by decide, C4_merge_contract.2 20 2 0 1 [("x", .numJ 1)]
    [("y", .numJ 2)] (.objJ 5 [("x", .numJ 1), ("y", .numJ 2)]) 7
    (by decide) (by decide) rfl⟩

/-- C5 counterexample: the claim says the decoder is total and never
raises.  On the tagged union whose `structValue` is a wrapper object
without a `fields` member — `{structValue: {}}` — the source calls
`Object.entries(structValue.fields!)` on `undefined`, which throws a
`TypeError`; the embedded decoder returns `none`, the model of that
raise. -/
theorem C5_struct_missing_fields_raises :
    getValueFromField (.mk none none none none none (some (some none))) =
      none := rfl

/-- C5 (amended): the decoder checks the discriminants in the fixed
priority order boolean, number, string, null, list, struct, returns the
first match's underlying value — recursing into lists and structs with
the same decoder, preserving list order and struct keys — and returns
null when none of the six discriminants is present; it never raises
except when a present `listValue`/`structValue` payload is `null` or a
present `structValue` lacks its `fields` map. -/
theorem C5_decoder_contract :
    (∀ (b : Bool) q s nl lv sv,
      getValueFromField (.mk (some b) q s nl lv sv) = some (.nb b)) ∧
    (∀ (q : Int) s nl lv sv,
      getValueFromField (.mk none (some q) s nl lv sv) = some (.nn q)) ∧
    (∀ (s : String) nl lv sv,
      getValueFromField (.mk none none (some s) nl lv sv) = some (.ns s)) ∧
    (∀ stored lv sv,
      getValueFromField (.mk none none none (some stored) lv sv) =
        some (nullStoredToNative stored)) ∧
    (∀ vs sv,
      getValueFromField (.mk none none none none (some (some (some vs)))
        sv) = (decodeValues vs).map NVal.nlist) ∧
    (∀ fs,
      getValueFromField (.mk none none none none none
        (some (some (some fs)))) = (decodeEntries fs).map NVal.nmap) ∧
    (getValueFromField (.mk none none none none none none) =
      some .nnull) ∧
    (∀ v, decoderSafe v = true → (getValueFromField v).isSome = true) := by
  refine ⟨fun b q s nl lv sv => rfl, fun q s nl lv sv => rfl,
    fun s nl lv sv => rfl, fun stored lv sv => rfl, ?_, ?_, rfl, ?_⟩
  · intro vs sv
    simp only [getValueFromField]
    rcases h : decodeValues vs with _ | xs <;> simp
  · intro fs
    simp only [getValueFromField]
    rcases h : decodeEntries fs with _ | m <;> simp
  · exact fun v hsafe => (decode_total_aux (sizeOf v)).1 v le_rfl hsafe

/-- C5 witness: the totality part applied to a concrete decoder-safe
struct. -/
theorem C5_decoder_contract_witness :
    decoderSafe (.mk none none none none none (some (some (some
      [("k", .mk (some true) none none none none none)])))) = true ∧
    (getValueFromField (.mk none none none none none (some (some (some
      [("k", .mk (some true) none none none none none)]))))).isSome =
      true :=
  ⟨rfl, C5_decoder_contract.2.2.2.2.2.2.2 _ rfl⟩

/-- C6 counterexample: the claim says the merged defaults share no
sub-object references with either configuration layer.  Merging the suite
layer `{a: {b: 5}}` with an empty test layer yields a tree whose field
`a` carries address 1 — the very node of the suite layer, shared by
reference. -/
theorem C6_merge_shares_subobject :
    getTestInteractionMergedDefaults 20 3
        (.objJ 0 [("a", .objJ 1 [("b", .numJ 5)])]) (.objJ 2 []) =
      some (.objJ 6 [("a", .objJ 1 [("b", .numJ 5)])], 7) ∧
    JVal.objJ 1 [("b", .numJ 5)] ∈
      subVals (.objJ 6 [("a", .objJ 1 [("b", .numJ 5)])]) ∧
    JVal.objJ 1 [("b", .numJ 5)] ∈
      subVals (.objJ 0 [("a", .objJ 1 [("b", .numJ 5)])]) ∧
    ¬ freshObj 3 (.objJ 1 [("b", .numJ 5)]) := by
  refine ⟨rfl, ?_, ?_, ?_⟩
  · simp [subVals, subValsF]
  · simp [subVals, subValsF]
  · show ¬ (3 ≤ 1)
    omega

/-- C6 (amended): the merged defaults' root object is freshly allocated
(the layers' top-level objects are never aliased by the result), but the
result may share nested sub-objects by reference with either layer. -/
theorem C6_mergedDefaults_root_fresh :
    ∀ f c a b (afs bfs : List (String × JVal)) r c2,
      (fieldKeys afs).Nodup →
      getTestInteractionMergedDefaults f c (.objJ a afs) (.objJ b bfs) =
        some (r, c2) →
      ∃ fs2, r = .objJ (c + 2 + afs.length) fs2 ∧ freshObj c r := by
  intro f c a b afs bfs r c2 hnd h
  rw [getTestInteractionMergedDefaults] at h
  obtain ⟨g, res, -, hr⟩ := getDeepMerge_obj_char f c a b afs bfs r c2 hnd h
  refine ⟨res, hr, ?_⟩
  rw [hr]
  show c ≤ c + 2 + afs.length
  omega

/-- C6 witness: root freshness at the concrete layers of the
counterexample. -/
theorem C6_mergedDefaults_root_fresh_witness :
    (fieldKeys [("a", JVal.objJ 1 [("b", JVal.numJ 5)])]).Nodup ∧
    ∃ fs2, (JVal.objJ 6 [("a", .objJ 1 [("b", .numJ 5)])]) =
        .objJ (3 + 2 + [("a", JVal.objJ 1 [("b", JVal.numJ 5)])].length)
          fs2 ∧
      freshObj 3 (JVal.objJ 6 [("a", .objJ 1 [("b", .numJ 5)])]) :=
  ⟨by decide, C6_mergedDefaults_root_fresh 20 3 0 2
    [("a", .objJ 1 [("b", .numJ 5)])] []
    (.objJ 6 [("a", .objJ 1 [("b", .numJ 5)])]) 7 (by decide) rfl⟩

/-- C7: merging two plain objects mutates neither input: every node of
the result is either an object freshly allocated by the merge (address at
or above the starting counter) or a node of one of the inputs shared by
reference with its subtree unchanged — the engine writes only into fresh
allocations — and the result itself is a newly created object. -/
theorem C7_merge_frame :
    ∀ f c a b (afs bfs : List (String × JVal)) r c2,
      (fieldKeys afs).Nodup →
      getDeepMerge f c (.objJ a afs) (.objJ b bfs) = some (r, c2) →
      (∀ x ∈ subVals r, freshObj c x ∨ x ∈ subVals (.objJ a afs) ∨
        x ∈ subVals (.objJ b bfs)) ∧
      ∃ fs2, r = .objJ (c + 2 + afs.length) fs2 := by
  intro f c a b afs bfs r c2 hnd h
  refine ⟨(mergeFrame f).1 c _ _ r c2 h, ?_⟩
  obtain ⟨g, res, -, hr⟩ := getDeepMerge_obj_char f c a b afs bfs r c2 hnd h
  exact ⟨res, hr⟩

/-- C7 witness: the frame applied to the concrete merge of `{x: 1}` with
`{y: [7]}` (note the array leaf stays shared). -/
theorem C7_merge_frame_witness :
    (fieldKeys [("x", JVal.numJ 1)]).Nodup ∧
    ((∀ x ∈ subVals (JVal.objJ 6 [("x", .numJ 1),
        ("y", .arrJ 2 [.numJ 7])]),
      freshObj 3 x ∨ x ∈ subVals (.objJ 0 [("x", .numJ 1)]) ∨
        x ∈ subVals (.objJ 1 [("y", .arrJ 2 [.numJ 7])])) ∧
     ∃ fs2, (JVal.objJ 6 [("x", .numJ 1), ("y", .arrJ 2 [.numJ 7])]) =
        .objJ (3 + 2 + [("x", JVal.numJ 1)].length) fs2) :=
  ⟨by decide, C7_merge_frame 20 3 0 1 [("x", .numJ 1)]
    [("y", .arrJ 2 [.numJ 7])]
    (.objJ 6 [("x", .numJ 1), ("y", .arrJ 2 [.numJ 7])]) 8 (by decide)
    rfl⟩

/-- C9: the merge is idempotent in its override argument: re-merging the
result with the same override yields a deep-equal tree (equality after
erasing object identities). -/
theorem C9_merge_idempotent :
    ∀ f g c d (A B M M2 : JVal) c1 c2,
      wfJ A = true → wfJ B = true →
      getDeepMerge f c A B = some (M, c1) →
      getDeepMerge g d M B = some (M2, c2) →
      erase M2 = erase M := by
  intro f g c d A B M M2 c1 c2 hwA hwB h1 h2
  have hwM : wfJ M = true := (mergeWf f).1 c A B M c1 h1 hwA hwB
  have e1 : erase M = pmerge (erase A) (erase B) :=
    (mergeErase f).1 c A B M c1 h1 hwA hwB
  have e2 : erase M2 = pmerge (erase M) (erase B) :=
    (mergeErase g).1 d M B M2 c2 h2 hwM hwB
  rw [e2, e1, pmerge_idem (erase A) (erase B) (wfP_erase B hwB)]

/-- C9 witness: idempotence at the concrete merge of `{x: 1}` with
`{x: 2, y: 3}`. -/
theorem C9_merge_idempotent_witness :
    wfJ (.objJ 0 [("x", JVal.numJ 1)]) = true ∧
    wfJ (.objJ 1 [("x", JVal.numJ 2), ("y", JVal.numJ 3)]) = true ∧
    getDeepMerge 20 2 (.objJ 0 [("x", .numJ 1)])
        (.objJ 1 [("x", .numJ 2), ("y", .numJ 3)]) =
      some (.objJ 5 [("x", .numJ 2), ("y", .numJ 3)], 8) ∧
    getDeepMerge 20 8 (.objJ 5 [("x", .numJ 2), ("y", .numJ 3)])
        (.objJ 1 [("x", .numJ 2), ("y", .numJ 3)]) =
      some (.objJ 12 [("x", .numJ 2), ("y", .numJ 3)], 15) ∧
    erase (JVal.objJ 12 [("x", .numJ 2), ("y", .numJ 3)]) =
      erase (JVal.objJ 5 [("x", .numJ 2), ("y", .numJ 3)]) :=
  ⟨rfl, rfl, rfl, rfl, C9_merge_idempotent 20 20 2 8
    (.objJ 0 [("x", .numJ 1)]) (.objJ 1 [("x", .numJ 2), ("y", .numJ 3)])
    (.objJ 5 [("x", .numJ 2), ("y", .numJ 3)])
    (.objJ 12 [("x", .numJ 2), ("y", .numJ 3)]) 8 15 rfl rfl rfl rfl⟩

/-- C10: `assertTopMatchedIntent` succeeds exactly when the expected
intent occurs among the first `requiredPlace - 1` entries of the
matched-intents list (the source slices with `slice(0, requiredPlace -
1)` before the membership check); with the default `requiredPlace = 1` it
therefore raises for every non-empty matched-intents list, even when the
top matched intent equals the expected one. -/
theorem C10_assertTopMatchedIntent_contract :
    (∀ (query e : String) (p : Int) (l : List String) (uq : Option String),
      assertTopMatchedIntent query e p l uq = .ok () ↔
        e ∈ jsSliceTo l (p - 1)) ∧
    (∀ (query e : String) (l : List String) (uq : Option String),
      l ≠ [] → l.head? = some e →
      ∃ msg, assertTopMatchedIntent query e 1 l uq = .error msg) := by
  have hmain : ∀ (query e : String) (p : Int) (l : List String)
      (uq : Option String),
      assertTopMatchedIntent query e p l uq = .ok () ↔
        e ∈ jsSliceTo l (p - 1) := by
    intro query e p l uq
    unfold assertTopMatchedIntent
    by_cases hc : (jsSliceTo l (p - 1)).contains e = true
    · rw [if_pos hc]
      simp only [true_iff]
      exact List.elem_iff.mp hc
    · rw [if_neg hc]
      constructor
      · intro h; exact absurd h (by simp)
      · intro h
        exact absurd (List.elem_iff.mpr h) hc
  refine ⟨hmain, ?_⟩
  intro query e l uq hne hhead
  unfold assertTopMatchedIntent
  rw [if_neg (by simp [jsSliceTo])]
  exact ⟨_, rfl⟩

/-- C10 witness: with the default `requiredPlace = 1`, a list whose top
matched intent is exactly the expected one still raises. -/
theorem C10_assertTopMatchedIntent_witness :
    (["actions.intent.MAIN"] : List String) ≠ [] ∧
    (["actions.intent.MAIN"] : List String).head? =
      some "actions.intent.MAIN" ∧
    ∃ msg, assertTopMatchedIntent "hello" "actions.intent.MAIN" 1
      ["actions.intent.MAIN"] (some "hello") = .error msg :=
  ⟨by decide, by decide, C10_assertTopMatchedIntent_contract.2 "hello"
    "actions.intent.MAIN" ["actions.intent.MAIN"] (some "hello")
    (by decide) (by decide)⟩

/-- C8 witness: a failing default-mode assertion raises an error whose
message contains the last user query. -/
theorem C8_assertValueCommon_witness :
    exceptOk (assertValueCommon (fun _ _ => false) "abc" (.single "zzz")
      "text" {} (some "my query")) = false ∧
    ∃ msg, assertValueCommon (fun _ _ => false) "abc" (.single "zzz")
      "text" {} (some "my query") = .error msg ∧
      jsIncludes msg (jsShowNullable (some "my query")) = true :=
  ⟨rfl, (C8_assertValueCommon_contract.1 (fun _ _ => false) "abc" "text"
    (.single "zzz") (some "my query")).2.2 {} rfl⟩
